import Mathlib

/-!
Verification of the rule-template expansion and CIDR aggregation engine of
the `dimonb/vpn` repository (`cfgapp/src/utils.py` and
`cfgapp/src/processor.py`).  Python functions are embedded shallowly:

* strings are Lean `String`s; line processing works on `String.data`
  (`List Char`), since in this toolchain a `String` wraps a `List Char`;
* Python `int` arithmetic is `Nat` (addresses) and `Int` (merge costs);
* Python exceptions are `Except String` results;
* `async` fetching is a pure environment `Env : String → FetchResult`;
  concurrency disappears (each task is independent and the merge is by
  recorded line index).

Python regexes are embedded as deterministic matching functions; each
carries a comment with the original pattern.
-/

namespace VpnSpec

/-! ## Python string primitives -/

/-- Characters matched by the regex class `\s` / stripped by `str.strip()`
(ASCII part; the engine only meets ASCII whitespace). -/
def isPySpace (c : Char) : Bool :=
  c = (' ') || c = ('\t') || c = ('\n') || c = ('\r') || c = ('\x0b') || c = ('\x0c')

/-- `str.strip()` on a character list. -/
def pyStripList (l : List Char) : List Char :=
  ((l.dropWhile isPySpace).reverse.dropWhile isPySpace).reverse

/-- `str.strip()`. -/
def pyStrip (s : String) : String := ⟨pyStripList s.data⟩

/-- Helper for `splitOnChar`: returns (current chunk, later chunks). -/
def splitAux (sep : Char) : List Char → List Char × List (List Char)
  | [] => ([], [])
  | c :: rest =>
    let r := splitAux sep rest
    if c = sep then ([], r.1 :: r.2) else (c :: r.1, r.2)

/-- Python `str.split(sep)` for a single-character separator: empty chunks
are kept and the empty string yields `[""]`. -/
def splitOnChar (sep : Char) (l : List Char) : List (List Char) :=
  (splitAux sep l).1 :: (splitAux sep l).2

/-- `text.split("\n")`. -/
def splitLines (s : String) : List String :=
  (splitOnChar ('\n') s.data).map (fun l => ⟨l⟩)

/-- `s.startswith(pre)`. -/
def pyStartsWith (s pre : String) : Bool := pre.data.isPrefixOf s.data

/-! ## Deduplicator (`IPProcessor.dedupe_lines`) -/

/-- The loop of `dedupe_lines`: `seen` is the set of already-kept trimmed
keys (Python uses a `set`; a list with membership is an equivalent model). -/
def dedupeGo (seen : List String) : List String → List String
  | [] => []
  | l :: ls =>
    let key := pyStrip l
    if key ≠ ("") ∧ key ∉ seen then l :: dedupeGo (key :: seen) ls
    else dedupeGo seen ls

/-- `IPProcessor.dedupe_lines` (utils.py 264-284): stable de-duplication by
trimmed value, dropping blank-after-trim lines. -/
def dedupe_lines (lines : List String) : List String := dedupeGo [] lines

/-! ## Regex embeddings -/

/-- One octet of `RE_IPV4_CIDR`: `\d{1,3}`. -/
def octetText (l : List Char) : Bool :=
  decide (l ≠ []) && decide (l.length ≤ 3) && l.all Char.isDigit

/-- The mask part of `RE_IPV4_CIDR`: `[0-9]|[12][0-9]|3[0-2]`. -/
def pfxText4 : List Char → Bool
  | [c] => c.isDigit
  | [c1, c2] =>
    ((c1 = ('1') || c1 = ('2')) && c2.isDigit) ||
      (c1 = ('3') && (c2 = ('0') || c2 = ('1') || c2 = ('2')))
  | _ => false

/-- `RE_IPV4_CIDR = ^(?:\d{1,3}\.){3}\d{1,3}\/(?:[0-9]|[12][0-9]|3[0-2])$`
(utils.py line 15). -/
def re_ipv4_cidr (s : String) : Bool :=
  match splitOnChar ('/') s.data with
  | [addr, pfx] =>
    (match splitOnChar ('.') addr with
     | [a, b, c, d] => octetText a && octetText b && octetText c && octetText d
     | _ => false) && pfxText4 pfx
  | _ => false

/-- Character class `[0-9a-f:]` of `RE_IPV6_CIDR`, case-insensitive. -/
def isHexColon (c : Char) : Bool :=
  c.isDigit || (('a') ≤ c && c ≤ ('f')) || (('A') ≤ c && c ≤ ('F')) || c = (':')

/-- `RE_IPV6_CIDR = ^([0-9a-f:]+:+)+\/\d{1,3}$` with `re.IGNORECASE`
(utils.py line 16).  The language of `([0-9a-f:]+:+)+` is exactly: a string
of length ≥ 2 over the class that ends with a colon. -/
def re_ipv6_cidr (s : String) : Bool :=
  match splitOnChar ('/') s.data with
  | [addr, pfx] =>
    decide (2 ≤ addr.length) && addr.all isHexColon &&
      decide (addr.getLast? = some (':')) &&
      decide (pfx ≠ []) && decide (pfx.length ≤ 3) && pfx.all Char.isDigit
  | _ => false

/-- Case-insensitive literal matcher: consumes `pre` from the head of `l`
(both compared through `Char.toLower`), returns the rest on success. -/
def stripCI : List Char → List Char → Option (List Char)
  | [], l => some l
  | _ :: _, [] => none
  | p :: ps, c :: cs => if c.toLower = p.toLower then stripCI ps cs else none

/-- `RULE_RE = ^\s*RULE-SET\s*,\s*([^,\s]+)\s*,\s*([^#]+?)\s*(?:#.*)?$`
with `re.IGNORECASE` (processor.py 14-16).  Returns
`(group(1), group(2).strip())` — the only consumer (`parse_template`)
strips group 2 immediately, so the stripped value is returned here.  The
regex matches iff the text before the first `#` after the second comma is
non-empty (the lazy `[^#]+?` may match a lone whitespace character, which
strips to `""`). -/
def ruleMatch (line : String) : Option (String × String) :=
  match stripCI ("RULE-SET").data (line.data.dropWhile isPySpace) with
  | none => none
  | some l1 =>
    match l1.dropWhile isPySpace with
    | (',') :: l3 =>
      let l4 := l3.dropWhile isPySpace
      let g1 := l4.takeWhile (fun c => ¬ (c = (',') ∨ isPySpace c))
      if g1 = [] then none
      else
        match (l4.drop g1.length).dropWhile isPySpace with
        | (',') :: l6 =>
          let p := l6.takeWhile (fun c => c ≠ ('#'))
          if p = [] then none
          else some (⟨g1⟩, ⟨pyStripList p⟩)
        | _ => none
    | _ => none

/-- `NETSET_RE = ^#NETSET\s+(\S+)` with `re.IGNORECASE` (processor.py 17),
used via `re.match` (prefix match). -/
def netsetMatch (line : String) : Option String :=
  match stripCI ("#NETSET").data line.data with
  | none => none
  | some l1 =>
    let ws := l1.takeWhile isPySpace
    if ws = [] then none
    else
      let g := (l1.drop ws.length).takeWhile (fun c => ¬ isPySpace c)
      if g = [] then none else some ⟨g⟩

/-! ## IPv4 parsing and rendering (`ipaddress.IPv4Network`) -/

/-- CPython `_parse_octet`: 1-3 ASCII digits, no leading zero (unless the
octet is exactly "0"), value ≤ 255. -/
def parseOctet (l : List Char) : Option Nat :=
  if l = [] ∨ 3 < l.length ∨ ¬ l.all Char.isDigit then none
  else if 1 < l.length ∧ l.head? = some ('0') then none
  else
    let v := l.foldl (fun a c => a * 10 + (c.toNat - ('0').toNat)) 0
    if 255 < v then none else v

/-- CPython IPv4 `_ip_int_from_string`: exactly four dot-separated octets. -/
def parseIPv4Addr (l : List Char) : Option Nat :=
  match splitOnChar ('.') l with
  | [a, b, c, d] =>
    match parseOctet a, parseOctet b, parseOctet c, parseOctet d with
    | some a', some b', some c', some d' => some (((a' * 256 + b') * 256 + c') * 256 + d')
    | _, _, _, _ => none
  | _ => none

/-- CPython `_prefix_from_prefix_string` for a width of `bits`: decimal
digits only, value ≤ `bits`.  (Dotted netmask forms also accepted by
`ipaddress` are never produced by this engine and are not modelled.) -/
def parsePfxLen (bits : Nat) (l : List Char) : Option Nat :=
  if l = [] ∨ ¬ l.all Char.isDigit then none
  else
    let v := l.foldl (fun a c => a * 10 + (c.toNat - ('0').toNat)) 0
    if bits < v then none else some v

/-- `ipaddress.IPv4Network(cidr, strict=False)` as (raw address, prefix
length); a missing `/` means a `/32` host network, more than one `/` is an
error.  The returned address is not yet floored — flooring (`strict=False`
normalisation) happens at the use sites, mirroring `network_address`. -/
def parseIPv4Cidr (s : String) : Option (Nat × Nat) :=
  match splitOnChar ('/') s.data with
  | [a] =>
    match parseIPv4Addr a with
    | some v => some (v, 32)
    | none => none
  | [a, p] =>
    match parseIPv4Addr a, parsePfxLen 32 p with
    | some v, some k => some (v, k)
    | _, _ => none
  | _ => none

/-- `str(IPv4Address(n))`. -/
def ipv4ToString (n : Nat) : String :=
  s!"{n / 16777216 % 256}.{n / 65536 % 256}.{n / 256 % 256}.{n % 256}"

/-! ## IPv6 parsing and rendering (`ipaddress.IPv6Network`) -/

def isHexDigitChar (c : Char) : Bool :=
  c.isDigit || (('a') ≤ c && c ≤ ('f')) || (('A') ≤ c && c ≤ ('F'))

def hexVal (c : Char) : Nat :=
  if c.isDigit then c.toNat - ('0').toNat
  else if ('a') ≤ c && c ≤ ('f') then c.toNat - ('a').toNat + 10
  else c.toNat - ('A').toNat + 10

/-- CPython `_parse_hextet`: 1-4 hex digits. -/
def parseHextet (l : List Char) : Option Nat :=
  if l = [] ∨ 4 < l.length ∨ ¬ l.all isHexDigitChar then none
  else some (l.foldl (fun a c => a * 16 + hexVal c) 0)

/-- Folds a list of hextet texts into `acc`, 16 bits at a time
(the `ip_int = ip_int << 16 | hextet` loops of `_ip_int_from_string`). -/
def foldHextets (acc : Option Nat) (parts : List (List Char)) : Option Nat :=
  parts.foldl
    (fun a p =>
      match a, parseHextet p with
      | some v, some h => some (v * 65536 + h)
      | _, _ => none)
    acc

/-- `'%x' % n` (lowercase hex, no padding). -/
def natToHexChars (n : Nat) : List Char := Nat.toDigits 16 n

/-- CPython IPv6 `_ip_int_from_string`.  An embedded trailing IPv4 address
(`'.' in parts[-1]`) is rewritten into two hextets exactly as in the
source. -/
def parseIPv6Addr (l : List Char) : Option Nat :=
  if l = [] then none
  else
    let parts0 := splitOnChar (':') l
    let parts :=
      match parts0.getLast? with
      | some lastPart =>
        if lastPart.contains ('.') then
          match parseIPv4Addr lastPart with
          | some v4 =>
            some (parts0.dropLast ++ [natToHexChars (v4 / 65536), natToHexChars (v4 % 65536)])
          | none => none
        else some parts0
      | none => some parts0
    match parts with
    | none => none
    | some parts =>
      if parts.length < 3 ∨ 9 < parts.length then none
      else
        let inner := (parts.drop 1).dropLast
        if 2 ≤ inner.countP (fun p => p = []) then none
        else if inner.countP (fun p => p = []) = 1 then
          -- a single '::'
          let skip := 1 + inner.findIdx (fun p => p = [])
          let partsHi0 := skip
          let partsLo0 := parts.length - skip - 1
          let headEmpty := parts.head? = some []
          let lastEmpty := parts.getLast? = some []
          if headEmpty ∧ partsHi0 - 1 ≠ 0 then none
          else if lastEmpty ∧ partsLo0 - 1 ≠ 0 then none
          else
            let partsHi := if headEmpty then partsHi0 - 1 else partsHi0
            let partsLo := if lastEmpty then partsLo0 - 1 else partsLo0
            if 8 - (partsHi + partsLo) < 1 then none
            else
              match foldHextets (some 0) (parts.take partsHi) with
              | none => none
              | some hi =>
                foldHextets (some (hi * 2 ^ (16 * (8 - (partsHi + partsLo)))))
                  (parts.drop (parts.length - partsLo))
        else
          -- no '::': exactly eight parts, all non-empty hextets
          if parts.length ≠ 8 then none
          else foldHextets (some 0) parts

/-- `ipaddress.IPv6Network(cidr, strict=False)` as (raw address, prefix). -/
def parseIPv6Cidr (s : String) : Option (Nat × Nat) :=
  match splitOnChar ('/') s.data with
  | [a] =>
    match parseIPv6Addr a with
    | some v => some (v, 128)
    | none => none
  | [a, p] =>
    match parseIPv6Addr a, parsePfxLen 128 p with
    | some v, some k => some (v, k)
    | _, _ => none
  | _ => none

/-- The scanning loop of CPython `_compress_hextets`: returns the start and
length of the first longest run of zero hextets. -/
def bestZeroRun (hx : List Nat) : Nat × Nat :=
  let st := hx.foldl
    (fun (st : Nat × Nat × Nat × Nat) (v : Nat) =>
      -- st = (index, currentStart, currentLen, bestStart, bestLen) packed as
      -- (index, currentLen, bestStart, bestLen); currentStart = index - currentLen
      let (idx, curLen, bestStart, bestLen) := st
      if v = 0 then
        let curLen' := curLen + 1
        if bestLen < curLen' then (idx + 1, curLen', idx + 1 - curLen', curLen')
        else (idx + 1, curLen', bestStart, bestLen)
      else (idx + 1, 0, bestStart, bestLen))
    (0, 0, 0, 0)
  (st.2.2.1, st.2.2.2)

/-- `str(IPv6Address(n))` — CPython `_string_from_ip_int` with
`_compress_hextets`: the first longest run of at least two zero hextets is
replaced by `::`. -/
def ipv6ToString (n : Nat) : String :=
  let hx := (List.range 8).map (fun i => n / 2 ^ (16 * (7 - i)) % 65536)
  let strs : List String := hx.map (fun v => ⟨natToHexChars v⟩)
  let (bs, bl) := bestZeroRun hx
  if 1 < bl then
    let hd := strs.take bs
    let tl := strs.drop (bs + bl)
    let tl := if bs + bl = 8 then tl ++ [("")] else tl
    let parts := hd ++ ("") :: tl
    let parts := if bs = 0 then ("") :: parts else parts
    String.intercalate (":") parts
  else String.intercalate (":") strs

/-! ## Address blocks

`ipaddress.IPv4Network` / `ipaddress.IPv6Network` objects are modelled by
a base address and a prefix length over a width `bits` (32 or 128).  A
value corresponding to a really-constructible network object satisfies
`Wf`: prefix in range, base address in range and host bits zero. -/

structure Net where
  addr : Nat
  pfx : Nat
deriving DecidableEq

/-- `num_addresses`. -/
def Net.size (bits : Nat) (n : Net) : Nat := 2 ^ (bits - n.pfx)

/-- `broadcast_address` as an integer. -/
def Net.lastAddr (bits : Nat) (n : Net) : Nat := n.addr + Net.size bits n - 1

/-- Well-formedness of a constructed network object. -/
def Wf (bits : Nat) (n : Net) : Prop :=
  n.pfx ≤ bits ∧ n.addr % Net.size bits n = 0 ∧ n.addr + Net.size bits n ≤ 2 ^ bits

instance (bits : Nat) (n : Net) : Decidable (Wf bits n) := by
  unfold Wf; infer_instance

/-- `a.subnet_of(b)` for same-family networks (CPython `_is_subnet_of`):
`b.network_address <= a.network_address and
 b.broadcast_address >= a.broadcast_address`. -/
def isSubnetOf (bits : Nat) (a b : Net) : Bool :=
  decide (b.addr ≤ a.addr) && decide (Net.lastAddr bits a ≤ Net.lastAddr bits b)

/-- `net.supernet()` (one step): the identity on a `/0`, otherwise the
network floored to `prefixlen - 1`. -/
def supernetOf (bits : Nat) (n : Net) : Net :=
  if n.pfx = 0 then n
  else ⟨n.addr - n.addr % 2 ^ (bits - (n.pfx - 1)), n.pfx - 1⟩

/-- `NetworkCompactor.find_minimal_supernet` (utils.py 294-336): scan
prefix lengths from `minPfx` up to the address width; for each, floor the
minimum start address and accept the first candidate that reaches the
maximum end address and has every input as a subnet.
`min_addr & ~(size - 1)` equals `min_addr - min_addr % size` for the
power-of-two `size`. -/
def find_minimal_supernet (bits : Nat) (nets : List Net) (minPfx : Nat) : Option Net :=
  match nets with
  | [] => none
  | n0 :: rest =>
    let minAddr := rest.foldl (fun m x => min m x.addr) n0.addr
    let maxAddr := rest.foldl (fun m x => max m (Net.lastAddr bits x)) (Net.lastAddr bits n0)
    (List.range' minPfx (bits + 1 - minPfx)).findSome? (fun p =>
      let size := 2 ^ (bits - p)
      let base := minAddr - minAddr % size
      if maxAddr ≤ base + size - 1 ∧
          (n0 :: rest).all (fun net => isSubnetOf bits net ⟨base, p⟩) then
        some ⟨base, p⟩
      else none)

/-! ## `ipaddress.collapse_addresses`

CPython splits the input into single addresses (networks at the maximal
prefix) and proper networks; single addresses are sorted, deduplicated,
grouped into consecutive ranges (`_find_address_range`) and summarised
into CIDR blocks (`summarize_address_range`); finally
`_collapse_addresses_internal` merges sibling pairs through a supernet
dictionary and drops contained blocks from the sorted result. -/

/-- Association list standing for the `subnets` dict of
`_collapse_addresses_internal` (keys are unique by construction). -/
def lookupA (k : Net) : List (Net × Net) → Option Net
  | [] => none
  | kv :: rest => if kv.1 = k then some kv.2 else lookupA k rest

def eraseA (k : Net) : List (Net × Net) → List (Net × Net)
  | [] => []
  | kv :: rest => if kv.1 = k then rest else kv :: eraseA k rest

theorem length_eraseA_of_lookupA {k : Net} {l : List (Net × Net)} {v : Net}
    (h : lookupA k l = some v) : (eraseA k l).length + 1 = l.length := by
  induction l with
  | nil => simp [lookupA] at h
  | cons kv rest ih =>
    by_cases hk : kv.1 = k
    · simp [eraseA, hk]
    · simp only [lookupA, hk, if_false] at h
      simp [eraseA, hk, ih h]

/-- The `while to_merge:` loop of `_collapse_addresses_internal`.  The
Python list is appended to and popped at its end; here `toMerge` is that
stack with its top first (the initial list is reversed by the caller). -/
def phase1 (toMerge : List Net) (subnets : List (Net × Net)) (bits : Nat) :
    List (Net × Net) :=
  match toMerge with
  | [] => subnets
  | net :: rest =>
    let sup := supernetOf bits net
    match h : lookupA sup subnets with
    | some existing =>
      if existing = net then phase1 rest subnets bits
      else phase1 (sup :: rest) (eraseA sup subnets) bits
    | none => phase1 rest ((sup, net) :: subnets) bits
termination_by (toMerge.length + subnets.length, toMerge.length)
decreasing_by
  · exact Prod.Lex.right' _ (by simp only [List.length_cons]; omega)
      (by simp only [List.length_cons]; omega)
  · refine Prod.Lex.left _ _ ?_
    have h2 : (eraseA (supernetOf bits n0) subnets).length + 1 = subnets.length :=
      length_eraseA_of_lookupA h
    simp only [List.length_cons]
    omega
  · exact Prod.Lex.right' _ (by simp only [List.length_cons]; omega)
      (by simp only [List.length_cons]; omega)

/-- Insertion step of the model of Python `sorted` over networks, whose
sort key is `(version, network_address, netmask)` — lexicographic on
`(addr, pfx)` within one family. -/
def leNet (a b : Net) : Bool :=
  decide (a.addr < b.addr) || (decide (a.addr = b.addr) && decide (a.pfx ≤ b.pfx))

def insNet (a : Net) : List Net → List Net
  | [] => [a]
  | b :: rest => if leNet b a then b :: insNet a rest else a :: b :: rest

/-- `sorted(...)` over networks (insertion sort; the result of a sort is
determined by the key order, ties being identical networks). -/
def sortNets (l : List Net) : List Net := l.foldr insNet []

/-- The final scan of `_collapse_addresses_internal`: over the sorted
networks, skip any network whose broadcast address is already reached by
the last emitted network. -/
def phase2go (bits : Nat) (lastN : Net) : List Net → List Net
  | [] => []
  | n :: rest =>
    if Net.lastAddr bits n ≤ Net.lastAddr bits lastN then phase2go bits lastN rest
    else n :: phase2go bits n rest

def phase2 (bits : Nat) : List Net → List Net
  | [] => []
  | n :: rest => n :: phase2go bits n rest

def collapseInternal (bits : Nat) (l : List Net) : List Net :=
  phase2 bits (sortNets ((phase1 l.reverse [] bits).map (fun kv => kv.2)))

/-- Number of trailing zero bits (used by `_count_righthand_zero_bits`:
`(~number & (number - 1)).bit_length()` equals this count for positive
numbers). -/
def trailingZeros (n : Nat) : Nat :=
  if n = 0 then 0 else if n % 2 = 1 then 0 else trailingZeros (n / 2) + 1
termination_by n
decreasing_by omega

def countRighthandZeroBits (number bits : Nat) : Nat :=
  if number = 0 then bits else min bits (trailingZeros number)

/-- `n.bit_length()`. -/
def bitLength (n : Nat) : Nat := if n = 0 then 0 else Nat.log2 n + 1

/-- The loop of `summarize_address_range(first, last)`: emit the largest
aligned block starting at `first` that fits in the remaining range, then
advance.  The `first_int - 1 == ALL_ONES` break is the
top-of-address-space stop. -/
def summarizeLoop (bits lastA : Nat) (firstA : Nat) : List Net :=
  if _h : firstA ≤ lastA then
    let nbits := min (countRighthandZeroBits firstA bits) (bitLength (lastA - firstA + 1) - 1)
    let nxt := firstA + 2 ^ nbits
    Net.mk firstA (bits - nbits) ::
      (if nxt - 1 = 2 ^ bits - 1 then [] else summarizeLoop bits lastA nxt)
  else []
termination_by lastA + 1 - firstA
decreasing_by
  have : 0 < 2 ^ (min (countRighthandZeroBits firstA bits) (bitLength (lastA - firstA + 1) - 1)) :=
    Nat.pos_pow_of_pos _ (by norm_num)
  omega

/-- `_find_address_range` over the sorted unique address list: maximal
runs of consecutive addresses, as (first, last) pairs. -/
def findRanges (firstA lastA : Nat) : List Nat → List (Nat × Nat)
  | [] => [(firstA, lastA)]
  | a :: rest =>
    if a ≠ lastA + 1 then (firstA, lastA) :: findRanges a a rest
    else findRanges firstA a rest

def findAddressRange : List Nat → List (Nat × Nat)
  | [] => []
  | a :: rest => findRanges a a rest

/-- Model of `sorted(set(ips))`: insert into a sorted duplicate-free
list. -/
def insSorted (a : Nat) : List Nat → List Nat
  | [] => [a]
  | b :: rest =>
    if a < b then a :: b :: rest
    else if a = b then b :: rest
    else b :: insSorted a rest

def sortedDedup (l : List Nat) : List Nat := l.foldr insSorted []

/-- `ipaddress.collapse_addresses` restricted to network inputs of one
family (the only way this engine calls it). -/
def collapse (bits : Nat) (input : List Net) : List Net :=
  let ips := (input.filter (fun n => n.pfx = bits)).map (fun n => n.addr)
  let nets := input.filter (fun n => ¬ n.pfx = bits)
  let ipsSorted := sortedDedup ips
  let addrs := (findAddressRange ipsSorted).flatMap (fun r => summarizeLoop bits r.2 r.1)
  collapseInternal bits (addrs ++ nets)

/-! ### Size bounds for `collapse` (needed to define the merge loop) -/

theorem phase1_nil (subs : List (Net × Net)) (bits : Nat) : phase1 [] subs bits = subs := by
  rw [phase1]

theorem phase1_cons_dup {net : Net} {subs : List (Net × Net)} {bits : Nat}
    (h : lookupA (supernetOf bits net) subs = some net) (rest : List Net) :
    phase1 (net :: rest) subs bits = phase1 rest subs bits := by
  rw [phase1]
  split
  · rename_i existing heq
    have he : net = existing := by
      have := h.symm.trans heq
      injection this
    subst he
    simp
  · rename_i heq
    rw [h] at heq
    exact absurd heq (by simp)

theorem phase1_cons_merge {net existing : Net} {subs : List (Net × Net)} {bits : Nat}
    (h : lookupA (supernetOf bits net) subs = some existing) (hne : existing ≠ net)
    (rest : List Net) :
    phase1 (net :: rest) subs bits =
      phase1 (supernetOf bits net :: rest) (eraseA (supernetOf bits net) subs) bits := by
  rw [phase1]
  split
  · rename_i e heq
    have he : existing = e := by
      have := h.symm.trans heq
      injection this
    subst he
    simp [hne]
  · rename_i heq
    rw [h] at heq
    exact absurd heq (by simp)

theorem phase1_cons_add {net : Net} {subs : List (Net × Net)} {bits : Nat}
    (h : lookupA (supernetOf bits net) subs = none) (rest : List Net) :
    phase1 (net :: rest) subs bits =
      phase1 rest ((supernetOf bits net, net) :: subs) bits := by
  rw [phase1]
  split
  · rename_i e heq
    rw [h] at heq
    exact absurd heq (by simp)
  · rfl

theorem phase1_length (tm : List Net) (subs : List (Net × Net)) (bits : Nat) :
    (phase1 tm subs bits).length ≤ tm.length + subs.length := by
  induction tm, subs, bits using phase1.induct with
  | case1 subs bits => simp [phase1_nil]
  | case2 subs bits rest existing sup h ih =>
    have h' : lookupA (supernetOf bits existing) subs = some existing := h
    rw [phase1_cons_dup h']
    simp only [List.length_cons]
    omega
  | case3 subs bits n0 rest sup existing h hne ih =>
    have h' : lookupA (supernetOf bits n0) subs = some existing := h
    rw [phase1_cons_merge h' (fun he => hne he)]
    have h2 := length_eraseA_of_lookupA h'
    have ih' : (phase1 (supernetOf bits n0 :: rest) (eraseA (supernetOf bits n0) subs) bits).length ≤
        (supernetOf bits n0 :: rest).length + (eraseA (supernetOf bits n0) subs).length := ih
    simp only [List.length_cons] at ih' ⊢
    omega
  | case4 subs bits n0 rest sup h ih =>
    have h' : lookupA (supernetOf bits n0) subs = none := h
    rw [phase1_cons_add h']
    have ih' : (phase1 rest ((supernetOf bits n0, n0) :: subs) bits).length ≤
        rest.length + ((supernetOf bits n0, n0) :: subs).length := ih
    simp only [List.length_cons] at ih' ⊢
    omega

theorem phase2go_length (bits : Nat) (lastN : Net) (l : List Net) :
    (phase2go bits lastN l).length ≤ l.length := by
  induction l generalizing lastN with
  | nil => simp [phase2go]
  | cons n rest ih =>
    rw [phase2go]
    by_cases h : Net.lastAddr bits n ≤ Net.lastAddr bits lastN
    · simp only [if_pos h]
      exact le_trans (ih lastN) (by simp)
    · simp only [if_neg h, List.length_cons]
      exact Nat.succ_le_succ (ih n)

theorem phase2_length (bits : Nat) (l : List Net) :
    (phase2 bits l).length ≤ l.length := by
  cases l with
  | nil => simp [phase2]
  | cons n rest =>
    rw [phase2]
    simp only [List.length_cons]
    exact Nat.succ_le_succ (phase2go_length bits n rest)

theorem insNet_length (a : Net) (l : List Net) :
    (insNet a l).length = l.length + 1 := by
  induction l with
  | nil => simp [insNet]
  | cons b rest ih =>
    rw [insNet]
    by_cases h : leNet b a = true
    · simp [h, ih]
    · simp [h]

theorem sortNets_length (l : List Net) : (sortNets l).length = l.length := by
  induction l with
  | nil => simp [sortNets]
  | cons a rest ih =>
    simp only [sortNets, List.foldr_cons] at ih ⊢
    rw [insNet_length, ih, List.length_cons]

theorem summarizeLoop_eq_pos {bits lastA firstA : Nat} (h : firstA ≤ lastA) :
    summarizeLoop bits lastA firstA =
      Net.mk firstA
          (bits - min (countRighthandZeroBits firstA bits) (bitLength (lastA - firstA + 1) - 1)) ::
        (if firstA + 2 ^ min (countRighthandZeroBits firstA bits) (bitLength (lastA - firstA + 1) - 1) - 1
            = 2 ^ bits - 1 then []
         else summarizeLoop bits lastA
            (firstA + 2 ^ min (countRighthandZeroBits firstA bits) (bitLength (lastA - firstA + 1) - 1))) := by
  rw [summarizeLoop]
  simp [h]

theorem summarizeLoop_eq_neg {bits lastA firstA : Nat} (h : ¬ firstA ≤ lastA) :
    summarizeLoop bits lastA firstA = [] := by
  rw [summarizeLoop]
  simp [h]

theorem summarizeLoop_length (bits lastA firstA : Nat) :
    (summarizeLoop bits lastA firstA).length ≤ lastA + 1 - firstA := by
  induction firstA using summarizeLoop.induct bits lastA with
  | case1 x hx nbits nxt ih =>
    rw [summarizeLoop_eq_pos hx]
    have hp : 0 < 2 ^ min (countRighthandZeroBits x bits) (bitLength (lastA - x + 1) - 1) :=
      Nat.pos_pow_of_pos _ (by norm_num)
    have hih : (summarizeLoop bits lastA
        (x + 2 ^ min (countRighthandZeroBits x bits) (bitLength (lastA - x + 1) - 1))).length ≤
        lastA + 1 - (x + 2 ^ min (countRighthandZeroBits x bits) (bitLength (lastA - x + 1) - 1)) := ih
    by_cases hb : x + 2 ^ min (countRighthandZeroBits x bits) (bitLength (lastA - x + 1) - 1) - 1
        = 2 ^ bits - 1
    · simp only [if_pos hb, List.length_cons, List.length_nil]
      omega
    · simp only [if_neg hb, List.length_cons]
      omega
  | case2 x hx =>
    rw [summarizeLoop_eq_neg hx]
    simp

theorem insSorted_length_le (a : Nat) (l : List Nat) :
    (insSorted a l).length ≤ l.length + 1 := by
  induction l with
  | nil => simp [insSorted]
  | cons b rest ih =>
    rw [insSorted]
    by_cases h1 : a < b
    · simp [h1]
    · by_cases h2 : a = b
      · simp [h1, h2]
      · simp only [if_neg h1, if_neg h2, List.length_cons]
        omega

theorem sortedDedup_length_le (l : List Nat) : (sortedDedup l).length ≤ l.length := by
  induction l with
  | nil => simp [sortedDedup]
  | cons a rest ih =>
    simp only [sortedDedup, List.foldr_cons] at ih ⊢
    calc (insSorted a (rest.foldr insSorted [])).length
        ≤ (rest.foldr insSorted []).length + 1 := insSorted_length_le _ _
      _ ≤ rest.length + 1 := by omega

/-- Spans of the ranges found by `findRanges` add up to the initial span
plus the number of remaining elements, and each range is ordered. -/
theorem findRanges_spec (l : List Nat) : ∀ f a, f ≤ a →
    (((findRanges f a l).map (fun r => r.2 + 1 - r.1)).sum = (a + 1 - f) + l.length ∧
      ∀ r ∈ findRanges f a l, r.1 ≤ r.2) := by
  induction l with
  | nil =>
    intro f a hfa
    simp [findRanges]
    omega
  | cons b rest ih =>
    intro f a hfa
    rw [findRanges]
    by_cases hb : b ≠ a + 1
    · simp only [if_pos hb, List.map_cons, List.sum_cons, List.mem_cons]
      have h2 := ih b b le_rfl
      constructor
      · rw [h2.1]; simp only [List.length_cons]; omega
      · rintro r (rfl | hr)
        · exact hfa
        · exact h2.2 r hr
    · simp only [if_neg hb]
      push_neg at hb
      have h2 := ih f b (by omega)
      constructor
      · rw [h2.1]; simp only [List.length_cons]; omega
      · exact h2.2

theorem flatMap_summarize_length_le (bits : Nat) (rs : List (Nat × Nat))
    (h : ∀ r ∈ rs, r.1 ≤ r.2) :
    (rs.flatMap (fun r => summarizeLoop bits r.2 r.1)).length ≤
      (rs.map (fun r => r.2 + 1 - r.1)).sum := by
  induction rs with
  | nil => simp
  | cons r rest ih =>
    simp only [List.flatMap_cons, List.map_cons, List.sum_cons, List.length_append]
    have h1 := summarizeLoop_length bits r.2 r.1
    have h2 := ih (fun x hx => h x (List.mem_cons_of_mem r hx))
    omega

theorem filter_split_length (bits : Nat) (l : List Net) :
    (l.filter (fun n => n.pfx = bits)).length +
      (l.filter (fun n => ¬ n.pfx = bits)).length = l.length := by
  induction l with
  | nil => simp
  | cons a rest ih =>
    by_cases h : a.pfx = bits
    · simp only [List.filter_cons, h, decide_True, decide_not, if_true]
      simp only [List.length_cons]
      simp at ih ⊢
      omega
    · simp only [List.filter_cons, decide_not]
      simp [h] at ih ⊢
      omega

theorem collapseInternal_length_le (bits : Nat) (l : List Net) :
    (collapseInternal bits l).length ≤ l.length := by
  unfold collapseInternal
  calc (phase2 bits (sortNets ((phase1 l.reverse [] bits).map (fun kv => kv.2)))).length
      ≤ (sortNets ((phase1 l.reverse [] bits).map (fun kv => kv.2))).length :=
        phase2_length _ _
    _ = ((phase1 l.reverse [] bits).map (fun kv => kv.2)).length := sortNets_length _
    _ = (phase1 l.reverse [] bits).length := List.length_map _ _
    _ ≤ l.reverse.length + ([] : List (Net × Net)).length := phase1_length _ _ _
    _ = l.length := by simp

theorem collapse_length_le (bits : Nat) (input : List Net) :
    (collapse bits input).length ≤ input.length := by
  unfold collapse
  have haddr : ((findAddressRange
      (sortedDedup ((input.filter (fun n => n.pfx = bits)).map (fun n => n.addr)))).flatMap
        (fun r => summarizeLoop bits r.2 r.1)).length ≤
      (sortedDedup ((input.filter (fun n => n.pfx = bits)).map (fun n => n.addr))).length := by
    cases hs : sortedDedup ((input.filter (fun n => n.pfx = bits)).map (fun n => n.addr)) with
    | nil => simp [findAddressRange]
    | cons a rest =>
      rw [findAddressRange]
      have hspec := findRanges_spec rest a a le_rfl
      calc ((findRanges a a rest).flatMap (fun r => summarizeLoop bits r.2 r.1)).length
          ≤ ((findRanges a a rest).map (fun r => r.2 + 1 - r.1)).sum :=
            flatMap_summarize_length_le bits _ hspec.2
        _ = (a + 1 - a) + rest.length := hspec.1
        _ = (a :: rest).length := by simp; omega
  have hsd := sortedDedup_length_le ((input.filter (fun n => n.pfx = bits)).map (fun n => n.addr))
  have hsplit := filter_split_length bits input
  have hlm : ((input.filter (fun n => n.pfx = bits)).map (fun n => n.addr)).length
      = (input.filter (fun n => n.pfx = bits)).length := List.length_map _ _
  calc (collapseInternal bits _).length
      ≤ _ := collapseInternal_length_le bits _
    _ ≤ input.length := by
        simp only [List.length_append]
        omega

/-! ## `NetworkCompactor.compact_networks` (utils.py 338-426) -/

/-- The inner `while i < len(nets) - 1 and len(nets) > target_max` scan of
adjacent pairs: on a merge the pair is replaced by its minimal supernet,
the list re-collapsed and `i` kept; otherwise `i` advances.  `changed` is
the pass's flag. -/
def innerScan (bits : Nat) (thr : Int) (minPfx targetMax : Nat)
    (nets : List Net) (i : Nat) (changed : Bool) : List Net × Bool :=
  if h : i + 1 < nets.length ∧ targetMax < nets.length then
    match hd : nets.drop i with
    | n1 :: n2 :: rest2 =>
      match find_minimal_supernet bits [n1, n2] minPfx with
      | some s =>
        if ((Net.size bits s : Int) - Net.size bits n1 - Net.size bits n2) ≤ thr then
          innerScan bits thr minPfx targetMax (collapse bits (nets.take i ++ s :: rest2)) i true
        else innerScan bits thr minPfx targetMax nets (i + 1) changed
      | none => innerScan bits thr minPfx targetMax nets (i + 1) changed
    | _ => (nets, changed) -- unreachable: `nets.drop i` has ≥ 2 elements here
  else (nets, changed)
termination_by nets.length - i
decreasing_by
  all_goals first
  | omega
  | (have hc := collapse_length_le bits (nets.take i ++ s :: rest2)
     have hdl : (nets.drop i).length = nets.length - i := List.length_drop _ _
     rw [hd] at hdl
     have htk : (nets.take i).length = min i nets.length := List.length_take _ _
     simp only [List.length_cons, List.length_append] at hc hdl ⊢
     omega)

theorem drop_two {l : List Net} {i : Nat} (h : i + 1 < l.length) :
    ∃ a b r, l.drop i = a :: b :: r := by
  have hdl : (l.drop i).length = l.length - i := List.length_drop _ _
  match hd : l.drop i with
  | [] => rw [hd] at hdl; simp at hdl; omega
  | [a] => rw [hd] at hdl; simp at hdl; omega
  | a :: b :: r => exact ⟨a, b, r, rfl⟩

theorem innerScan_eq_merge {bits : Nat} {thr : Int} {minPfx targetMax : Nat}
    {nets : List Net} {i : Nat} {c : Bool} {n1 n2 s : Net} {rest2 : List Net}
    (h : i + 1 < nets.length ∧ targetMax < nets.length)
    (hd : nets.drop i = n1 :: n2 :: rest2)
    (hfms : find_minimal_supernet bits [n1, n2] minPfx = some s)
    (hcost : ((Net.size bits s : Int) - Net.size bits n1 - Net.size bits n2) ≤ thr) :
    innerScan bits thr minPfx targetMax nets i c =
      innerScan bits thr minPfx targetMax (collapse bits (nets.take i ++ s :: rest2)) i true := by
  rw [innerScan, dif_pos h]
  split
  · rename_i a b r hd2
    rw [hd] at hd2
    injection hd2 with e1 hd3
    injection hd3 with e2 e3
    subst e1; subst e2; subst e3
    rw [hfms]
    simp only [if_pos hcost]
  · rename_i hcontra
    exact absurd hd (hcontra n1 n2 rest2)

theorem innerScan_eq_skip {bits : Nat} {thr : Int} {minPfx targetMax : Nat}
    {nets : List Net} {i : Nat} {c : Bool} {n1 n2 s : Net} {rest2 : List Net}
    (h : i + 1 < nets.length ∧ targetMax < nets.length)
    (hd : nets.drop i = n1 :: n2 :: rest2)
    (hfms : find_minimal_supernet bits [n1, n2] minPfx = some s)
    (hcost : ¬ ((Net.size bits s : Int) - Net.size bits n1 - Net.size bits n2) ≤ thr) :
    innerScan bits thr minPfx targetMax nets i c =
      innerScan bits thr minPfx targetMax nets (i + 1) c := by
  rw [innerScan, dif_pos h]
  split
  · rename_i a b r hd2
    rw [hd] at hd2
    injection hd2 with e1 hd3
    injection hd3 with e2 e3
    subst e1; subst e2; subst e3
    rw [hfms]
    simp only [if_neg hcost]
  · rename_i hcontra
    exact absurd hd (hcontra n1 n2 rest2)

theorem innerScan_eq_none {bits : Nat} {thr : Int} {minPfx targetMax : Nat}
    {nets : List Net} {i : Nat} {c : Bool} {n1 n2 : Net} {rest2 : List Net}
    (h : i + 1 < nets.length ∧ targetMax < nets.length)
    (hd : nets.drop i = n1 :: n2 :: rest2)
    (hfms : find_minimal_supernet bits [n1, n2] minPfx = none) :
    innerScan bits thr minPfx targetMax nets i c =
      innerScan bits thr minPfx targetMax nets (i + 1) c := by
  rw [innerScan, dif_pos h]
  split
  · rename_i a b r hd2
    rw [hd] at hd2
    injection hd2 with e1 hd3
    injection hd3 with e2 e3
    subst e1; subst e2; subst e3
    rw [hfms]
  · rename_i hcontra
    exact absurd hd (hcontra n1 n2 rest2)

theorem innerScan_eq_exit {bits : Nat} {thr : Int} {minPfx targetMax : Nat}
    {nets : List Net} {i : Nat} {c : Bool}
    (h : ¬ (i + 1 < nets.length ∧ targetMax < nets.length)) :
    innerScan bits thr minPfx targetMax nets i c = (nets, c) := by
  rw [innerScan, dif_neg h]

/-- Length bookkeeping of the merge branch: replacing the adjacent pair by
one network and re-collapsing shrinks the list. -/
theorem merge_list_length {bits : Nat} {nets : List Net} {i : Nat} {n1 n2 s : Net}
    {rest2 : List Net} (h : i + 1 < nets.length)
    (hd : nets.drop i = n1 :: n2 :: rest2) :
    (collapse bits (nets.take i ++ s :: rest2)).length + 1 ≤ nets.length := by
  have hc := collapse_length_le bits (nets.take i ++ s :: rest2)
  have hdl : (nets.drop i).length = nets.length - i := List.length_drop _ _
  rw [hd] at hdl
  have htk : (nets.take i).length = min i nets.length := List.length_take _ _
  simp only [List.length_cons, List.length_append] at hc hdl
  omega

theorem innerScan_length (bits : Nat) (thr : Int) (minPfx targetMax : Nat)
    (nets : List Net) (i : Nat) (c : Bool) :
    (innerScan bits thr minPfx targetMax nets i c).1.length ≤ nets.length := by
  induction nets, i, c using innerScan.induct bits thr minPfx targetMax with
  | case1 nets i c h n1 n2 rest2 hd s hfms hcost ih =>
    rw [innerScan_eq_merge h hd hfms hcost]
    have := @merge_list_length bits nets i n1 n2 s rest2 h.1 hd
    omega
  | case2 nets i c h n1 n2 rest2 hd s hfms hcost ih =>
    rw [innerScan_eq_skip h hd hfms hcost]
    exact ih
  | case3 nets i c h n1 n2 rest2 hd hfms ih =>
    rw [innerScan_eq_none h hd hfms]
    exact ih
  | case4 nets i c h hd =>
    obtain ⟨a, b, r, habr⟩ := drop_two h.1
    exact absurd habr (hd a b r)
  | case5 nets i c h =>
    rw [innerScan_eq_exit h]

theorem innerScan_flag (bits : Nat) (thr : Int) (minPfx targetMax : Nat)
    (nets : List Net) (i : Nat) (c : Bool) :
    (innerScan bits thr minPfx targetMax nets i c).2 = true →
      c = true ∨ (innerScan bits thr minPfx targetMax nets i c).1.length < nets.length := by
  induction nets, i, c using innerScan.induct bits thr minPfx targetMax with
  | case1 nets i c h n1 n2 rest2 hd s hfms hcost ih =>
    intro _
    rw [innerScan_eq_merge h hd hfms hcost]
    right
    have hlen := innerScan_length bits thr minPfx targetMax
      (collapse bits (nets.take i ++ s :: rest2)) i true
    have := @merge_list_length bits nets i n1 n2 s rest2 h.1 hd
    omega
  | case2 nets i c h n1 n2 rest2 hd s hfms hcost ih =>
    rw [innerScan_eq_skip h hd hfms hcost]
    exact ih
  | case3 nets i c h n1 n2 rest2 hd hfms ih =>
    rw [innerScan_eq_none h hd hfms]
    exact ih
  | case4 nets i c h hd =>
    obtain ⟨a, b, r, habr⟩ := drop_two h.1
    exact absurd habr (hd a b r)
  | case5 nets i c h =>
    rw [innerScan_eq_exit h]
    intro hc2
    exact Or.inl hc2

/-- The `while changed and len(nets) > target_max` loop: each continuing
iteration sorts by base address, runs one full pass and repeats while the
pass merged something. -/
def whileChanged (bits : Nat) (thr : Int) (minPfx targetMax : Nat) (nets : List Net) :
    List Net :=
  if targetMax < nets.length then
    let r := innerScan bits thr minPfx targetMax (sortNets nets) 0 false
    if r.2 = true then whileChanged bits thr minPfx targetMax r.1 else r.1
  else nets
termination_by nets.length
decreasing_by
  rename_i hflag
  have h1 := innerScan_flag bits thr minPfx targetMax (sortNets nets) 0 false hflag
  have h2 := sortNets_length nets
  simp only [Bool.false_eq_true, false_or] at h1
  omega

/-- The ascending cost-threshold ladder of `compact_networks`. -/
def thresholds : List Int := [1048576, 2097152, 4194304, 8388608, 16777216]

/-- `for threshold in thresholds:` with the `if len(nets) <= target_max:
break` check after each threshold. -/
def thresholdLoop (bits : Nat) (minPfx targetMax : Nat) : List Int → List Net → List Net
  | [], nets => nets
  | t :: ts, nets =>
    let nets2 := whileChanged bits t minPfx targetMax nets
    if nets2.length ≤ targetMax then nets2 else thresholdLoop bits minPfx targetMax ts nets2

/-- `NetworkCompactor.compact_networks` on parsed networks of one family
(`version` is the width `bits`; the strict parse of the CIDR strings is
the `Wf` hypothesis carried by the theorems). -/
def compact_networks (bits : Nat) (input : List Net) (targetMax minPfx : Nat) : List Net :=
  let nets := collapse bits input
  if nets.length ≤ targetMax then nets
  else thresholdLoop bits minPfx targetMax thresholds nets

/-- `NetworkCompactor.verify_coverage` (utils.py 428-462) on parsed
networks (the Python version re-parses CIDR strings and returns the
uncovered ones as strings; here the uncovered blocks are returned). -/
def verify_coverage (bits : Nat) (originals compacted : List Net) : Bool × List Net :=
  if originals = [] then (true, [])
  else
    let notCovered := originals.filter
      (fun o => ¬ (compacted.any (fun c => isSubnetOf bits o c || decide (o = c))))
    (notCovered.length = 0, notCovered)

/-! ## `IPProcessor` cover blocks and netset expansion -/

/-- The `while cursor <= end_addr` loop of `ipv4_cover_blocks`, the cursor
advancing by `(cursor + block_size) & 0xFFFFFFFF`.  The cursor strictly
grows by `block_size ≥ 1` per iteration unless the addition wraps at the
very top of the address space — where the Python loop never terminates —
so a step budget of `endAddr + 1 - cursor` runs every terminating
execution to completion. -/
def coverLoop : Nat → Nat → Nat → Nat → List Nat
  | 0, _, _, _ => []
  | fuel + 1, endAddr, blockSize, cursor =>
    if cursor ≤ endAddr then
      cursor :: coverLoop fuel endAddr blockSize ((cursor + blockSize) % 2 ^ 32)
    else []

/-- `IPProcessor.ipv4_cover_blocks` (utils.py 52-104): parse with
`strict=False` (flooring the address), emit the single floored block when
the prefix already equals the target, otherwise enumerate `/target`
blocks from the floored start while the cursor has not passed the
broadcast address.  An `AddressValueError` becomes
`ValueError("Invalid IPv4 CIDR: ...")`. -/
def ipv4_cover_blocks (ipv4BlockPfx : Nat) (cidr : String) : Except String (List String) :=
  match parseIPv4Cidr cidr with
  | none => Except.error s!"Invalid IPv4 CIDR: {cidr}"
  | some (addr0, pfx) =>
    let netAddr := addr0 - addr0 % 2 ^ (32 - pfx)
    if pfx = ipv4BlockPfx then Except.ok [s!"{ipv4ToString netAddr}/{ipv4BlockPfx}"]
    else
      let endAddr := netAddr + 2 ^ (32 - pfx) - 1
      let blockSize := 2 ^ (32 - ipv4BlockPfx)
      let cursor := netAddr - netAddr % blockSize
      Except.ok ((coverLoop (endAddr + 1 - cursor) endAddr blockSize cursor).map
        (fun c => s!"{ipv4ToString c}/{ipv4BlockPfx}"))

/-- `IPProcessor.ipv6_cidr_to_blocks` (utils.py 106-145): parse with
`strict=False`; if the prefix equals the target return that block,
otherwise floor the network address to the target prefix and return the
single floored block.  (Both the `AddressValueError` re-raise and a
`NetmaskValueError` surface as a `ValueError` to the callers, modelled as
one error message.) -/
def ipv6_cidr_to_blocks (ipv6BlockPfx : Nat) (cidr : String) : Except String (List String) :=
  match parseIPv6Cidr cidr with
  | none => Except.error s!"Invalid IPv6 CIDR: {cidr}"
  | some (addr0, pfx) =>
    let netAddr := addr0 - addr0 % 2 ^ (128 - pfx)
    if pfx = ipv6BlockPfx then Except.ok [s!"{ipv6ToString netAddr}/{ipv6BlockPfx}"]
    else
      let floored := netAddr - netAddr % 2 ^ (128 - ipv6BlockPfx)
      Except.ok [s!"{ipv6ToString floored}/{ipv6BlockPfx}"]

/-- The constructor arguments of `IPProcessor` (utils.py 26-50); the field
names drop the word "prefix" of the Python names (`ipv4_block_prefix`,
`compact_min_prefix_v4`, ...) to "Pfx". -/
structure IPCfg where
  ipv4BlockPfx : Nat := 18
  ipv6BlockPfx : Nat := 32
  enableCompaction : Bool := false
  compactTargetMax : Nat := 200
  compactMinPfxV4 : Nat := 11
  compactMinPfxV6 : Nat := 32

/-- `re.sub(r"^IP\s+", "", line, flags=re.IGNORECASE)`: one leading `IP`
token followed by whitespace is removed together with that whitespace
run. -/
def stripIpPfx (l : List Char) : List Char :=
  match l with
  | c1 :: c2 :: c3 :: rest =>
    if c1.toLower = ('i') ∧ c2.toLower = ('p') ∧ isPySpace c3 then
      (c3 :: rest).dropWhile isPySpace
    else l
  | _ => l

/-- `str(IPv4Network)` / `str(IPv6Network)`. -/
def renderNet4 (n : Net) : String := s!"{ipv4ToString n.addr}/{n.pfx}"

def renderNet6 (n : Net) : String := s!"{ipv6ToString n.addr}/{n.pfx}"

/-- Strict parse `ipaddress.IPv4Network(c)` used by `compact_networks`:
raises (`.error`) when host bits are set. -/
def parseIPv4Strict (s : String) : Except String Net :=
  match parseIPv4Cidr s with
  | none => Except.error s!"Invalid IPv4 CIDR: {s}"
  | some (a, p) =>
    if a % 2 ^ (32 - p) = 0 then Except.ok ⟨a, p⟩
    else Except.error s!"host bits set: {s}"

def parseIPv6Strict (s : String) : Except String Net :=
  match parseIPv6Cidr s with
  | none => Except.error s!"Invalid IPv6 CIDR: {s}"
  | some (a, p) =>
    if a % 2 ^ (128 - p) = 0 then Except.ok ⟨a, p⟩
    else Except.error s!"host bits set: {s}"

/-- `line[8:]` with the suffix stripped back off, as in
`IPProcessor._apply_compaction` (utils.py 220-226). -/
def cidrOfLine (suffix line : String) : String :=
  let cidr : List Char := line.data.drop 8
  if suffix ≠ ("") ∧ suffix.data.isSuffixOf cidr then
    ⟨cidr.take (cidr.length - suffix.data.length)⟩
  else ⟨cidr⟩

def isV4Line (suffix line : String) : Bool :=
  pyStartsWith line ("IP-CIDR,") && re_ipv4_cidr (cidrOfLine suffix line)

def isV6Line (suffix line : String) : Bool :=
  pyStartsWith line ("IP-CIDR,") && ¬ re_ipv4_cidr (cidrOfLine suffix line) &&
    re_ipv6_cidr (cidrOfLine suffix line)

/-- `IPProcessor._apply_compaction` (utils.py 202-262): split the lines
into IPv4 `IP-CIDR` lines, IPv6 ones and the rest (in order), compact the
two families independently and re-render, other lines first.  The strict
re-parse of an extracted CIDR can raise, which propagates (`.error`). -/
def applyCompaction (cfg : IPCfg) (suffix : String) (lines : List String) :
    Except String (List String) := do
  let v4nets ← ((lines.filter (isV4Line suffix)).map (cidrOfLine suffix)).mapM parseIPv4Strict
  let v6nets ← ((lines.filter (isV6Line suffix)).map (cidrOfLine suffix)).mapM parseIPv6Strict
  let otherLines := lines.filter (fun l => ¬ isV4Line suffix l && ¬ isV6Line suffix l)
  let ipv4Lines :=
    if v4nets ≠ [] then
      (compact_networks 32 v4nets cfg.compactTargetMax cfg.compactMinPfxV4).map
        (fun n => s!"IP-CIDR,{renderNet4 n}{suffix}")
    else []
  let ipv6Lines :=
    if v6nets ≠ [] then
      (compact_networks 128 v6nets cfg.compactTargetMax cfg.compactMinPfxV6).map
        (fun n => s!"IP-CIDR,{renderNet6 n}{suffix}")
    else []
  pure (otherLines ++ ipv4Lines ++ ipv6Lines)

/-- One iteration of the line loop of `IPProcessor.netset_expand`
(utils.py 163-191).  A `ValueError` from `ipv4_cover_blocks` propagates
(`.error` — there is no `try` around the IPv4 branch); the IPv6 branch
catches its `ValueError` and falls back to the passthrough line. -/
def netsetLine (cfg : IPCfg) (suffix : String) (acc : List String) (rawLine : String) :
    Except String (List String) :=
  let t := pyStripList rawLine.data
  if t = [] then Except.ok acc
  else if t.head? = some ('#') ∨ t.head? = some (';') then Except.ok acc
  else
    let line : String := ⟨stripIpPfx t⟩
    if re_ipv6_cidr line then
      match ipv6_cidr_to_blocks cfg.ipv6BlockPfx line with
      | Except.ok blocks =>
        Except.ok (acc ++ blocks.map
          (fun b => if pyStartsWith b ("#") then b else s!"IP-CIDR,{b}{suffix}"))
      | Except.error _ => Except.ok (acc ++ [s!"IP-CIDR,{line}{suffix}"])
    else if re_ipv4_cidr line then
      match ipv4_cover_blocks cfg.ipv4BlockPfx line with
      | Except.ok blocks4 => Except.ok (acc ++ blocks4.map (fun b => s!"IP-CIDR,{b}{suffix}"))
      | Except.error e => Except.error e
    else Except.ok acc

/-- `IPProcessor.netset_expand` (utils.py 147-200). -/
def netset_expand (cfg : IPCfg) (text suffix : String) : Except String (List String) := do
  let out ← (splitLines text).foldlM (fun acc l => netsetLine cfg suffix acc l) []
  let out := dedupe_lines out
  if cfg.enableCompaction then applyCompaction cfg suffix out
  else pure out

/-! ## `TemplateProcessor` (processor.py)

Fetching is a pure environment: `smart_fetch` (direct or origin-proxied
GET plus `raise_for_status`, which httpx raises for every non-2xx
status) and the plain GET of `expand_netset` both reduce to looking the
URL up and observing the status. -/

inductive FetchResult where
  | response (status : Nat) (body : String)
  | transportError
deriving DecidableEq

/-- httpx `Response.is_success`: a 2xx status. -/
def isSuccess (status : Nat) : Bool := decide (200 ≤ status) && decide (status < 300)

/-- The body when the fetch neither raised a transport error nor carried a
non-success status (`raise_for_status` otherwise raises). -/
def fetchOk : FetchResult → Option String
  | FetchResult.response s b => if isSuccess s then some b else none
  | FetchResult.transportError => none

def Env : Type := String → FetchResult

/-- `TemplateProcessor.expand_netset` (processor.py 54-77): a non-success
status yields the fetch-failed comment; any exception — transport error
or a `ValueError` escaping `netset_expand` — is absorbed into the error
comment.  Total by construction: no exception crosses the task
boundary. -/
def expand_netset (env : Env) (cfg : IPCfg) (url suffix : String) : List String :=
  match env url with
  | FetchResult.transportError => [s!"# NETSET error: {url}"]
  | FetchResult.response status body =>
    if isSuccess status then
      match netset_expand cfg body suffix with
      | Except.ok expanded => expanded
      | Except.error _ => [s!"# NETSET error: {url}"]
    else [s!"# NETSET fetch failed: {url} ({status})"]

/-- `re.sub(r"\s+,", ",", s)`: drop every whitespace run that immediately
precedes a comma. -/
def normBefore (l : List Char) : List Char :=
  l.foldr (fun c acc => if isPySpace c ∧ acc.head? = some (',') then acc else c :: acc) []

/-- `re.sub(r",\s+", ",", s)`: drop every whitespace run that immediately
follows a comma. -/
def normAfterGo (afterComma : Bool) : List Char → List Char
  | [] => []
  | c :: rest =>
    if afterComma ∧ isPySpace c then normAfterGo true rest
    else c :: normAfterGo (c = (',')) rest

/-- Case-insensitive comparison against the trailing token of
`,(PROXY|DIRECT|REJECT)\s*$` (the input is already stripped, so the
`\s*` is empty). -/
def endsWithCI (tok : String) (l : List Char) : Bool :=
  (tok.data.map Char.toLower).isSuffixOf (l.map Char.toLower)

/-- `re.sub(r",(PROXY|DIRECT|REJECT)\s*$", suffix, trimmed)` when the
search matched: the trailing `,TOKEN` is replaced by the suffix. -/
def replaceTrailingAction (suffix : String) (l : List Char) : Option (List Char) :=
  if endsWithCI (",PROXY") l then some (l.take (l.length - 6) ++ suffix.data)
  else if endsWithCI (",DIRECT") l then some (l.take (l.length - 7) ++ suffix.data)
  else if endsWithCI (",REJECT") l then some (l.take (l.length - 7) ++ suffix.data)
  else none

/-- The per-line rewriting of the regular-rules loop of
`expand_rule_set` (processor.py 124-151): skip blank and comment lines,
cut an end-of-line comment, normalise whitespace around commas, replace a
trailing action token by the suffix or append the suffix. -/
def processRuleLine (suffix : String) (rawLine : String) : Option String :=
  let t := pyStripList rawLine.data
  if t = [] then none
  else if t.head? = some ('#') then none
  else
    let t1 := if t.contains ('#') then pyStripList (t.takeWhile (fun c => c ≠ ('#'))) else t
    if t1 = [] then none
    else
      let t2 := normAfterGo false (normBefore t1)
      match replaceTrailingAction suffix t2 with
      | some r => some ⟨r⟩
      | none => some ⟨t2 ++ suffix.data⟩

/-- `TemplateProcessor.expand_rule_set` (processor.py 101-169): on fetch
failure the single fetch-failed comment; on success the header comment,
the rewritten regular lines, and — when `#NETSET` markers were found —
additionally the flattened netset expansions (`asyncio.gather` returns
them in marker order); the result is deduplicated either way. -/
def expand_rule_set (env : Env) (cfg : IPCfg) (url suffix : String) : List String :=
  match fetchOk (env url) with
  | none => [s!"# RULE-SET fetch failed: {url}"]
  | some text =>
    let lines := splitLines text
    let netsetUrls := lines.filterMap (fun l => netsetMatch (pyStrip l))
    let output := s!"# RULE-SET,{url}" :: lines.filterMap (processRuleLine suffix)
    if netsetUrls ≠ [] then
      dedupe_lines (output ++ netsetUrls.flatMap (fun nu => expand_netset env cfg nu suffix))
    else dedupe_lines output

structure RuleTask where
  index : Nat
  url : String
  suffix : String
deriving DecidableEq

/-- `TemplateProcessor.parse_template` (processor.py 79-99): tasks in
line order, the passthrough array holding `none` exactly at task lines,
and the line count. -/
def parse_template (tpl : String) : List RuleTask × List (Option String) × Nat :=
  let lines := splitLines tpl
  let tagged := lines.enum
  let tasks := tagged.filterMap (fun p =>
    (ruleMatch p.2).map (fun g => RuleTask.mk p.1 g.1 (("," : String) ++ g.2)))
  let passthrough := tagged.map (fun p => if (ruleMatch p.2).isSome then none else some p.2)
  (tasks, passthrough, lines.length)

/-- `TemplateProcessor.process_template` (processor.py 171-202) before the
final join: expand every task, splice each expansion at its recorded line
index (`task_by_index`), emit passthrough lines (`passthrough[i] or ""`)
at their own indices, deduplicate. -/
def process_template_lines (env : Env) (cfg : IPCfg) (tpl : String) : List String :=
  let parsed := parse_template tpl
  let expansions := parsed.1.map (fun t => (t.index, expand_rule_set env cfg t.url t.suffix))
  let merged := (List.range parsed.2.2).flatMap (fun i =>
    match expansions.lookup i with
    | some e => e
    | none => [(parsed.2.1.getD i none).getD ("")])
  dedupe_lines merged

def process_template (env : Env) (cfg : IPCfg) (tpl : String) : String :=
  String.intercalate ("\n") (process_template_lines env cfg tpl)

/-! ## Properties of the deduplicator -/

theorem dedupeGo_cons_keep {x : String} {seen : List String}
    (hx : pyStrip x ≠ ("") ∧ pyStrip x ∉ seen) (xs : List String) :
    dedupeGo seen (x :: xs) = x :: dedupeGo (pyStrip x :: seen) xs := by
  simp only [dedupeGo]
  rw [if_pos hx]

theorem dedupeGo_cons_drop {x : String} {seen : List String}
    (hx : ¬ (pyStrip x ≠ ("") ∧ pyStrip x ∉ seen)) (xs : List String) :
    dedupeGo seen (x :: xs) = dedupeGo seen xs := by
  simp only [dedupeGo]
  rw [if_neg hx]

theorem dedupeGo_sublist (l : List String) : ∀ seen, List.Sublist (dedupeGo seen l) l := by
  induction l with
  | nil => intro seen; simp [dedupeGo]
  | cons x xs ih =>
    intro seen
    by_cases hx : pyStrip x ≠ ("") ∧ pyStrip x ∉ seen
    · rw [dedupeGo_cons_keep hx]
      exact (ih _).cons₂ x
    · rw [dedupeGo_cons_drop hx]
      exact (ih seen).cons x

theorem dedupeGo_mem (l : List String) : ∀ seen (t : String), t ∈ dedupeGo seen l →
    pyStrip t ∉ seen ∧ pyStrip t ≠ ("") ∧ t ∈ l := by
  induction l with
  | nil => intro seen t h; simp [dedupeGo] at h
  | cons x xs ih =>
    intro seen t h
    by_cases hx : pyStrip x ≠ ("") ∧ pyStrip x ∉ seen
    · rw [dedupeGo_cons_keep hx] at h
      rcases List.mem_cons.mp h with rfl | h2
      · exact ⟨hx.2, hx.1, List.mem_cons_self _ _⟩
      · have h3 := ih _ t h2
        refine ⟨fun hs => h3.1 (List.mem_cons_of_mem _ hs), h3.2.1,
          List.mem_cons_of_mem _ h3.2.2⟩
    · rw [dedupeGo_cons_drop hx] at h
      have h3 := ih seen t h
      exact ⟨h3.1, h3.2.1, List.mem_cons_of_mem _ h3.2.2⟩

theorem dedupeGo_idem (l : List String) : ∀ seen,
    dedupeGo seen (dedupeGo seen l) = dedupeGo seen l := by
  induction l with
  | nil => intro seen; simp [dedupeGo]
  | cons x xs ih =>
    intro seen
    by_cases hx : pyStrip x ≠ ("") ∧ pyStrip x ∉ seen
    · rw [dedupeGo_cons_keep hx, dedupeGo_cons_keep hx, ih]
    · rw [dedupeGo_cons_drop hx, ih]

theorem dedupeGo_pairwise (l : List String) : ∀ seen,
    (dedupeGo seen l).Pairwise (fun a b => pyStrip a ≠ pyStrip b) := by
  induction l with
  | nil => intro seen; simp [dedupeGo]
  | cons x xs ih =>
    intro seen
    by_cases hx : pyStrip x ≠ ("") ∧ pyStrip x ∉ seen
    · rw [dedupeGo_cons_keep hx]
      refine List.Pairwise.cons ?_ (ih _)
      intro y hy hxy
      exact (dedupeGo_mem xs _ y hy).1 (by rw [← hxy]; exact List.mem_cons_self _ _)
    · rw [dedupeGo_cons_drop hx]
      exact ih seen

theorem dedupeGo_rep (l : List String) : ∀ seen (x : String), x ∈ l → pyStrip x ≠ ("") →
    pyStrip x ∉ seen → ∃ y ∈ dedupeGo seen l, pyStrip y = pyStrip x := by
  induction l with
  | nil => intro _ x hx; simp at hx
  | cons z zs ih =>
    intro seen x hx hne hseen
    by_cases hz : pyStrip z ≠ ("") ∧ pyStrip z ∉ seen
    · rw [dedupeGo_cons_keep hz]
      by_cases heq : pyStrip z = pyStrip x
      · exact ⟨z, List.mem_cons_self _ _, heq⟩
      · rcases List.mem_cons.mp hx with rfl | h2
        · exact absurd rfl heq
        · obtain ⟨y, hy, hys⟩ := ih (pyStrip z :: seen) x h2 hne
            (by simp only [List.mem_cons]; push_neg; exact ⟨fun hc => heq hc.symm, hseen⟩)
          exact ⟨y, List.mem_cons_of_mem _ hy, hys⟩
    · rw [dedupeGo_cons_drop hz]
      rcases List.mem_cons.mp hx with rfl | h2
      · exact absurd (⟨hne, hseen⟩ : pyStrip x ≠ ("") ∧ pyStrip x ∉ seen) hz
      · exact ih seen x h2 hne hseen

theorem dedupeGo_first (l : List String) : ∀ seen (t : String), t ∈ dedupeGo seen l →
    ∃ pre post, l = pre ++ t :: post ∧ ∀ u ∈ pre, pyStrip u ≠ pyStrip t := by
  induction l with
  | nil => intro seen t h; simp [dedupeGo] at h
  | cons z zs ih =>
    intro seen t h
    by_cases hz : pyStrip z ≠ ("") ∧ pyStrip z ∉ seen
    · rw [dedupeGo_cons_keep hz] at h
      rcases List.mem_cons.mp h with rfl | h2
      · exact ⟨[], zs, rfl, by simp⟩
      · obtain ⟨pre, post, hsplit, hpre⟩ := ih _ t h2
        have hmem := dedupeGo_mem zs _ t h2
        refine ⟨z :: pre, post, by rw [hsplit]; rfl, ?_⟩
        intro u hu
        rcases List.mem_cons.mp hu with rfl | h3
        · intro hc
          exact hmem.1 (by rw [← hc]; exact List.mem_cons_self _ _)
        · exact hpre u h3
    · rw [dedupeGo_cons_drop hz] at h
      obtain ⟨pre, post, hsplit, hpre⟩ := ih seen t h
      have hmem := dedupeGo_mem zs seen t h
      refine ⟨z :: pre, post, by rw [hsplit]; rfl, ?_⟩
      intro u hu
      rcases List.mem_cons.mp hu with rfl | h3
      · push_neg at hz
        intro hc
        by_cases hzs : pyStrip u = ("")
        · exact hmem.2.1 (by rw [← hc, hzs])
        · exact hmem.1 (by rw [← hc]; exact hz hzs)
      · exact hpre u h3

/-! ## Address-block arithmetic -/

theorem size_pos (bits : Nat) (n : Net) : 0 < Net.size bits n :=
  Nat.pos_pow_of_pos _ (by norm_num)

theorem isSubnetOf_refl (bits : Nat) (n : Net) : isSubnetOf bits n n = true := by
  simp [isSubnetOf]

theorem isSubnetOf_trans {bits : Nat} {a b c : Net} (h1 : isSubnetOf bits a b = true)
    (h2 : isSubnetOf bits b c = true) : isSubnetOf bits a c = true := by
  simp only [isSubnetOf, Bool.and_eq_true, decide_eq_true_eq] at h1 h2 ⊢
  omega

theorem addr_lt_of_wf {bits : Nat} {n : Net} (h : Wf bits n) : n.addr < 2 ^ bits := by
  have := size_pos bits n
  have h3 := h.2.2
  omega

theorem lastAddr_lt_of_wf {bits : Nat} {n : Net} (h : Wf bits n) :
    Net.lastAddr bits n < 2 ^ bits := by
  have := size_pos bits n
  have h3 := h.2.2
  unfold Net.lastAddr
  omega

theorem sub_mod_self_mod (a k : Nat) : (a - a % k) % k = 0 := by
  rcases Nat.eq_zero_or_pos k with rfl | hk
  · simp
  · have h1 := Nat.mod_add_div a k
    have h2 : a - a % k = k * (a / k) := by omega
    rw [h2]
    exact Nat.mul_mod_right _ _

/-- An aligned address strictly below an aligned bound leaves room for a
whole block. -/
theorem aligned_add_le {k m a : Nat} (hk : 0 < k) (ha : a % k = 0) (hlt : a < k * m) :
    a + k ≤ k * m := by
  have h1 : a = k * (a / k) := by
    have := Nat.mod_add_div a k
    omega
  have h2 : a / k < m := by
    by_contra hc
    push_neg at hc
    have : k * m ≤ k * (a / k) := Nat.mul_le_mul_left k hc
    omega
  calc a + k = k * (a / k) + k := by omega
    _ = k * (a / k + 1) := by ring
    _ ≤ k * m := Nat.mul_le_mul_left k h2

/-- The remainder of a `2^s`-aligned number modulo `2^(s+1)` is `0` or
`2^s`. -/
theorem mod_double_cases {a s : Nat} (h : a % 2 ^ s = 0) :
    a % 2 ^ (s + 1) = 0 ∨ a % 2 ^ (s + 1) = 2 ^ s := by
  have hd : 2 ^ s ∣ a % 2 ^ (s + 1) :=
    (Nat.dvd_mod_iff (pow_dvd_pow 2 (Nat.le_succ s))).mpr (Nat.dvd_of_mod_eq_zero h)
  have hlt : a % 2 ^ (s + 1) < 2 ^ (s + 1) :=
    Nat.mod_lt _ (Nat.pos_pow_of_pos _ (by norm_num))
  obtain ⟨q, hq⟩ := hd
  rw [pow_succ] at hlt
  have hq2 : q < 2 := by
    by_contra hc
    push_neg at hc
    have : 2 ^ s * 2 ≤ 2 ^ s * q := Nat.mul_le_mul_left _ hc
    omega
  interval_cases q
  · left; omega
  · right; omega

theorem wf_supernetOf {bits : Nat} {n : Net} (h : Wf bits n) :
    Wf bits (supernetOf bits n) := by
  unfold supernetOf
  by_cases hp : n.pfx = 0
  · rw [if_pos hp]; exact h
  · rw [if_neg hp]
    have hple : n.pfx ≤ bits := h.1
    have he : bits - (n.pfx - 1) = (bits - n.pfx) + 1 := by omega
    refine ⟨?_, ?_, ?_⟩
    · show n.pfx - 1 ≤ bits
      omega
    · show (n.addr - n.addr % 2 ^ (bits - (n.pfx - 1))) % 2 ^ (bits - (n.pfx - 1)) = 0
      exact sub_mod_self_mod _ _
    · show n.addr - n.addr % 2 ^ (bits - (n.pfx - 1)) + 2 ^ (bits - (n.pfx - 1)) ≤ 2 ^ bits
      have hfull : 2 ^ bits = 2 ^ (bits - (n.pfx - 1)) * 2 ^ (n.pfx - 1) := by
        rw [← pow_add]
        congr 1
        omega
      have hmod := sub_mod_self_mod n.addr (2 ^ (bits - (n.pfx - 1)))
      have hlt : n.addr - n.addr % 2 ^ (bits - (n.pfx - 1)) <
          2 ^ (bits - (n.pfx - 1)) * 2 ^ (n.pfx - 1) := by
        have := addr_lt_of_wf h
        omega
      have := aligned_add_le (Nat.pos_pow_of_pos _ (by norm_num)) hmod hlt
      omega

theorem isSubnetOf_supernetOf {bits : Nat} {n : Net} (h : Wf bits n) :
    isSubnetOf bits n (supernetOf bits n) = true := by
  unfold supernetOf
  by_cases hp : n.pfx = 0
  · rw [if_pos hp]; exact isSubnetOf_refl bits n
  · rw [if_neg hp]
    have hple : n.pfx ≤ bits := h.1
    have he : bits - (n.pfx - 1) = (bits - n.pfx) + 1 := by omega
    simp only [isSubnetOf, Net.lastAddr, Net.size, Bool.and_eq_true, decide_eq_true_eq]
    rw [he]
    have hcases := mod_double_cases h.2.1
    have hps : (0:Nat) < 2 ^ (bits - n.pfx) := Nat.pos_pow_of_pos _ (by norm_num)
    have hmle : n.addr % 2 ^ (bits - n.pfx + 1) ≤ n.addr := Nat.mod_le _ _
    constructor
    · exact Nat.sub_le _ _
    · rw [pow_succ] at hcases ⊢
      omega

/-! ## Properties of `find_minimal_supernet` -/

theorem exists_of_findSome?_eq_some {α β : Type} {f : α → Option β} {l : List α} {b : β}
    (h : l.findSome? f = some b) : ∃ a ∈ l, f a = some b := by
  induction l with
  | nil => simp [List.findSome?] at h
  | cons x xs ih =>
    rw [List.findSome?_cons] at h
    cases hx : f x with
    | some v =>
      rw [hx] at h
      have h2 : some v = some b := h
      exact ⟨x, List.mem_cons_self _ _, hx.trans h2⟩
    | none =>
      rw [hx] at h
      have h2 : List.findSome? f xs = some b := h
      obtain ⟨a, ha, hfa⟩ := ih h2
      exact ⟨a, List.mem_cons_of_mem _ ha, hfa⟩

theorem foldl_min_le_init (l : List Net) (a : Nat) :
    l.foldl (fun m x => min m x.addr) a ≤ a := by
  induction l generalizing a with
  | nil => simp
  | cons x xs ih =>
    simp only [List.foldl_cons]
    exact le_trans (ih _) (Nat.min_le_left _ _)

theorem foldl_max_lt {bits : Nat} (l : List Net) (a : Nat) (c : Nat) (ha : a < c)
    (hl : ∀ n ∈ l, Net.lastAddr bits n < c) :
    l.foldl (fun m x => max m (Net.lastAddr bits x)) a < c := by
  induction l generalizing a with
  | nil => simpa
  | cons x xs ih =>
    simp only [List.foldl_cons]
    refine ih _ ?_ (fun n hn => hl n (List.mem_cons_of_mem _ hn))
    exact max_lt ha (hl x (List.mem_cons_self _ _))

/-- Everything `find_minimal_supernet` promises about a returned
candidate: all inputs are subnets, the prefix respects the `minPfx` floor
and the width, and the base is aligned. -/
theorem fms_spec {bits : Nat} {nets : List Net} {minPfx : Nat} {s : Net}
    (h : find_minimal_supernet bits nets minPfx = some s) :
    (∀ n ∈ nets, isSubnetOf bits n s = true) ∧
      minPfx ≤ s.pfx ∧ s.pfx ≤ bits ∧ s.addr % Net.size bits s = 0 := by
  match nets with
  | [] => simp [find_minimal_supernet] at h
  | n0 :: rest =>
    unfold find_minimal_supernet at h
    obtain ⟨p, hp, hfp⟩ := exists_of_findSome?_eq_some h
    have hpr := List.mem_range'_1.mp hp
    dsimp only at hfp
    split at hfp
    · rename_i hcond
      injection hfp with hs
      subst hs
      refine ⟨fun n hn => List.all_eq_true.mp hcond.2 n hn, ?_, ?_, sub_mod_self_mod _ _⟩
      · show minPfx ≤ p
        omega
      · show p ≤ bits
        omega
    · exact absurd hfp (by simp)

theorem fms_wf {bits : Nat} {nets : List Net} {minPfx : Nat} {s : Net}
    (hwf : ∀ n ∈ nets, Wf bits n)
    (h : find_minimal_supernet bits nets minPfx = some s) : Wf bits s := by
  match nets with
  | [] => simp [find_minimal_supernet] at h
  | n0 :: rest =>
    have hspec := fms_spec h
    unfold find_minimal_supernet at h
    obtain ⟨p, hp, hfp⟩ := exists_of_findSome?_eq_some h
    dsimp only at hfp
    split at hfp
    · rename_i hcond
      injection hfp with hs
      subst hs
      refine ⟨hspec.2.2.1, hspec.2.2.2, ?_⟩
      show _ - _ % 2 ^ (bits - p) + 2 ^ (bits - p) ≤ 2 ^ bits
      have hple : p ≤ bits := hspec.2.2.1
      have hmin : rest.foldl (fun m x => min m x.addr) n0.addr ≤ n0.addr :=
        foldl_min_le_init rest n0.addr
      have ha0 : n0.addr < 2 ^ bits := addr_lt_of_wf (hwf n0 (List.mem_cons_self _ _))
      have hfull : 2 ^ bits = 2 ^ (bits - p) * 2 ^ p := by
        rw [← pow_add]
        congr 1
        omega
      have hmod := sub_mod_self_mod (rest.foldl (fun m x => min m x.addr) n0.addr) (2 ^ (bits - p))
      have hb : rest.foldl (fun m x => min m x.addr) n0.addr -
          rest.foldl (fun m x => min m x.addr) n0.addr % 2 ^ (bits - p) <
          2 ^ (bits - p) * 2 ^ p := by
        omega
      have := aligned_add_le (Nat.pos_pow_of_pos _ (by norm_num)) hmod hb
      omega
    · exact absurd hfp (by simp)

/-- With no floor (`min_prefix = 0`) the scan accepts its very first
candidate, the whole address space. -/
theorem fms_zero {bits : Nat} {n0 : Net} {rest : List Net}
    (hwf : ∀ n ∈ n0 :: rest, Wf bits n) :
    find_minimal_supernet bits (n0 :: rest) 0 = some ⟨0, 0⟩ := by
  unfold find_minimal_supernet
  have hr : List.range' 0 (bits + 1 - 0) = 0 :: List.range' 1 bits := by
    rw [Nat.sub_zero, List.range'_succ]
  dsimp only
  rw [hr, List.findSome?_cons]
  have hmin : rest.foldl (fun m x => min m x.addr) n0.addr ≤ n0.addr :=
    foldl_min_le_init rest n0.addr
  have ha0 : n0.addr < 2 ^ bits := addr_lt_of_wf (hwf n0 (List.mem_cons_self _ _))
  have hmlt : rest.foldl (fun m x => min m x.addr) n0.addr < 2 ^ bits := by omega
  have hbase : rest.foldl (fun m x => min m x.addr) n0.addr -
      rest.foldl (fun m x => min m x.addr) n0.addr % 2 ^ (bits - 0) = 0 := by
    rw [Nat.sub_zero, Nat.mod_eq_of_lt hmlt]
    omega
  have hmax : rest.foldl (fun m x => max m (Net.lastAddr bits x)) (Net.lastAddr bits n0) <
      2 ^ bits := by
    refine foldl_max_lt rest _ _ (lastAddr_lt_of_wf (hwf n0 (List.mem_cons_self _ _))) ?_
    intro n hn
    exact lastAddr_lt_of_wf (hwf n (List.mem_cons_of_mem _ hn))
  rw [hbase]
  have hcond : rest.foldl (fun m x => max m (Net.lastAddr bits x)) (Net.lastAddr bits n0) ≤
      0 + 2 ^ (bits - 0) - 1 ∧
      ((n0 :: rest).all (fun net => isSubnetOf bits net ⟨0, 0⟩)) = true := by
    constructor
    · rw [Nat.sub_zero]
      omega
    · rw [List.all_eq_true]
      intro n hn
      simp only [isSubnetOf, Net.lastAddr, Net.size, Bool.and_eq_true, decide_eq_true_eq]
      refine ⟨Nat.zero_le _, ?_⟩
      have h1 : n.addr + 2 ^ (bits - n.pfx) - 1 < 2 ^ bits := lastAddr_lt_of_wf (hwf n hn)
      have h2 : (0:Nat) < 2 ^ (bits - n.pfx) := Nat.pos_pow_of_pos _ (by norm_num)
      simp only [Nat.sub_zero]
      omega
  rw [if_pos hcond]

/-! ## Coverage preservation through `collapse` -/

/-- The block `x` is covered by some member of `s`. -/
def Covers (bits : Nat) (s : List Net) (x : Net) : Prop :=
  ∃ y ∈ s, isSubnetOf bits x y = true

theorem Covers.mono {bits : Nat} {s t : List Net} {x : Net}
    (hsub : ∀ y ∈ s, y ∈ t) (h : Covers bits s x) : Covers bits t x := by
  obtain ⟨y, hy, hxy⟩ := h
  exact ⟨y, hsub y hy, hxy⟩

theorem mem_insNet {a x : Net} {l : List Net} : x ∈ insNet a l ↔ x = a ∨ x ∈ l := by
  induction l with
  | nil => simp [insNet]
  | cons b rest ih =>
    rw [insNet]
    by_cases h : leNet b a = true
    · rw [if_pos h]
      simp only [List.mem_cons, ih]
      tauto
    · rw [if_neg h]
      simp only [List.mem_cons]

theorem mem_sortNets {x : Net} {l : List Net} : x ∈ sortNets l ↔ x ∈ l := by
  induction l with
  | nil => simp [sortNets]
  | cons a rest ih =>
    simp only [sortNets, List.foldr_cons] at ih ⊢
    rw [mem_insNet, ih, List.mem_cons]

theorem insNet_pairwise {a : Net} {l : List Net}
    (h : l.Pairwise (fun x y => x.addr ≤ y.addr)) :
    (insNet a l).Pairwise (fun x y => x.addr ≤ y.addr) := by
  induction l with
  | nil => simp [insNet]
  | cons b rest ih =>
    rw [insNet]
    rcases List.pairwise_cons.mp h with ⟨hb, hrest⟩
    by_cases hle : leNet b a = true
    · rw [if_pos hle]
      refine List.pairwise_cons.mpr ⟨?_, ih hrest⟩
      intro y hy
      rcases mem_insNet.mp hy with rfl | hy2
      · simp only [leNet, Bool.or_eq_true, Bool.and_eq_true, decide_eq_true_eq] at hle
        omega
      · exact hb y hy2
    · rw [if_neg hle]
      refine List.pairwise_cons.mpr ⟨?_, h⟩
      intro y hy
      simp only [leNet, Bool.or_eq_true, Bool.and_eq_true, decide_eq_true_eq] at hle
      push_neg at hle
      rcases List.mem_cons.mp hy with rfl | hy2
      · omega
      · have := hb y hy2
        omega

theorem sortNets_pairwise (l : List Net) :
    (sortNets l).Pairwise (fun x y => x.addr ≤ y.addr) := by
  induction l with
  | nil => simp [sortNets]
  | cons a rest ih =>
    simp only [sortNets, List.foldr_cons] at ih ⊢
    exact insNet_pairwise ih

theorem phase2go_subset (bits : Nat) (l : List Net) : ∀ (lastN : Net),
    ∀ y ∈ phase2go bits lastN l, y ∈ l := by
  induction l with
  | nil => intro lastN y hy; simp [phase2go] at hy
  | cons n rest ih =>
    intro lastN y hy
    rw [phase2go] at hy
    by_cases h : Net.lastAddr bits n ≤ Net.lastAddr bits lastN
    · rw [if_pos h] at hy
      exact List.mem_cons_of_mem _ (ih lastN y hy)
    · rw [if_neg h] at hy
      rcases List.mem_cons.mp hy with rfl | hy2
      · exact List.mem_cons_self _ _
      · exact List.mem_cons_of_mem _ (ih n y hy2)

theorem phase2_subset (bits : Nat) (l : List Net) : ∀ y ∈ phase2 bits l, y ∈ l := by
  cases l with
  | nil => simp [phase2]
  | cons n rest =>
    intro y hy
    rw [phase2] at hy
    rcases List.mem_cons.mp hy with rfl | hy2
    · exact List.mem_cons_self _ _
    · exact List.mem_cons_of_mem _ (phase2go_subset bits rest n y hy2)

theorem phase2go_covers (bits : Nat) (l : List Net) : ∀ (lastN : Net),
    l.Pairwise (fun x y => x.addr ≤ y.addr) →
    (∀ m ∈ l, lastN.addr ≤ m.addr) →
    ∀ m ∈ l, ∃ y ∈ lastN :: phase2go bits lastN l, isSubnetOf bits m y = true := by
  induction l with
  | nil => intro lastN _ _ m hm; simp at hm
  | cons n rest ih =>
    intro lastN hpair hge m hm
    rcases List.pairwise_cons.mp hpair with ⟨hn, hrest⟩
    rw [phase2go]
    by_cases h : Net.lastAddr bits n ≤ Net.lastAddr bits lastN
    · rw [if_pos h]
      rcases List.mem_cons.mp hm with rfl | hm2
      · refine ⟨lastN, List.mem_cons_self _ _, ?_⟩
        simp only [isSubnetOf, Bool.and_eq_true, decide_eq_true_eq]
        exact ⟨hge m (List.mem_cons_self _ _), h⟩
      · exact ih lastN hrest (fun x hx => hge x (List.mem_cons_of_mem _ hx)) m hm2
    · rw [if_neg h]
      rcases List.mem_cons.mp hm with rfl | hm2
      · exact ⟨m, List.mem_cons_of_mem _ (List.mem_cons_self _ _), isSubnetOf_refl bits m⟩
      · obtain ⟨y, hy, hxy⟩ := ih n hrest hn m hm2
        rcases List.mem_cons.mp hy with rfl | hy2
        · exact ⟨y, List.mem_cons_of_mem _ (List.mem_cons_self _ _), hxy⟩
        · exact ⟨y, List.mem_cons_of_mem _ (List.mem_cons_of_mem _ hy2), hxy⟩

theorem phase2_covers (bits : Nat) (l : List Net)
    (hpair : l.Pairwise (fun x y => x.addr ≤ y.addr)) :
    ∀ m ∈ l, ∃ y ∈ phase2 bits l, isSubnetOf bits m y = true := by
  cases l with
  | nil => simp
  | cons n rest =>
    intro m hm
    rcases List.pairwise_cons.mp hpair with ⟨hn, hrest⟩
    rw [phase2]
    rcases List.mem_cons.mp hm with rfl | hm2
    · exact ⟨m, List.mem_cons_self _ _, isSubnetOf_refl bits m⟩
    · exact phase2go_covers bits rest n hrest hn m hm2

theorem lookupA_mem {k v : Net} {l : List (Net × Net)} (h : lookupA k l = some v) :
    (k, v) ∈ l := by
  induction l with
  | nil => simp [lookupA] at h
  | cons kv rest ih =>
    rw [lookupA] at h
    by_cases hk : kv.1 = k
    · rw [if_pos hk] at h
      injection h with hv
      have he : (k, v) = kv := by rw [← hk, ← hv]
      rw [he]
      exact List.mem_cons_self _ _
    · rw [if_neg hk] at h
      exact List.mem_cons_of_mem _ (ih h)

theorem eraseA_subset {k : Net} {l : List (Net × Net)} : ∀ kv ∈ eraseA k l, kv ∈ l := by
  induction l with
  | nil => simp [eraseA]
  | cons hd rest ih =>
    intro kv hkv
    rw [eraseA] at hkv
    by_cases hk : hd.1 = k
    · rw [if_pos hk] at hkv
      exact List.mem_cons_of_mem _ hkv
    · rw [if_neg hk] at hkv
      rcases List.mem_cons.mp hkv with rfl | h2
      · exact List.mem_cons_self _ _
      · exact List.mem_cons_of_mem _ (ih kv h2)

theorem mem_eraseA_or {k : Net} {l : List (Net × Net)} :
    ∀ kv ∈ l, kv ∈ eraseA k l ∨ kv.1 = k := by
  induction l with
  | nil => simp
  | cons hd rest ih =>
    intro kv hkv
    rw [eraseA]
    by_cases hk : hd.1 = k
    · rw [if_pos hk]
      rcases List.mem_cons.mp hkv with rfl | h2
      · exact Or.inr hk
      · exact Or.inl h2
    · rw [if_neg hk]
      rcases List.mem_cons.mp hkv with rfl | h2
      · exact Or.inl (List.mem_cons_self _ _)
      · rcases ih kv h2 with h3 | h3
        · exact Or.inl (List.mem_cons_of_mem _ h3)
        · exact Or.inr h3

/-- The invariant of the supernet-dictionary phase: values stay
well-formed and the pool (stack plus dictionary values) never loses
coverage — a popped network and the sibling it displaces are both subnets
of the parent pushed back. -/
theorem phase1_main (tm : List Net) (subs : List (Net × Net)) (bits : Nat) :
    (∀ kv ∈ subs, isSubnetOf bits kv.2 kv.1 = true ∧ Wf bits kv.1 ∧ Wf bits kv.2) →
    (∀ n ∈ tm, Wf bits n) →
    (∀ kv ∈ phase1 tm subs bits, Wf bits kv.2) ∧
      (∀ x, Covers bits (tm ++ subs.map (fun kv => kv.2)) x →
        Covers bits ((phase1 tm subs bits).map (fun kv => kv.2)) x) := by
  induction tm, subs, bits using phase1.induct with
  | case1 subs bits =>
    intro hsubs htm
    rw [phase1_nil]
    exact ⟨fun kv hkv => (hsubs kv hkv).2.2, fun x hx => hx⟩
  | case2 subs bits rest existing sup h ih =>
    intro hsubs htm
    have h' : lookupA (supernetOf bits existing) subs = some existing := h
    rw [phase1_cons_dup h']
    have hmem : (supernetOf bits existing, existing) ∈ subs := lookupA_mem h'
    refine ih hsubs (fun n hn => htm n (List.mem_cons_of_mem _ hn)) |>.imp id ?_
    intro hcov x hx
    refine hcov x ?_
    obtain ⟨y, hy, hxy⟩ := hx
    rcases List.mem_append.mp hy with hy2 | hy2
    · rcases List.mem_cons.mp hy2 with rfl | hy3
      · exact ⟨y, List.mem_append_right _
          (List.mem_map.mpr ⟨(supernetOf bits y, y), hmem, rfl⟩), hxy⟩
      · exact ⟨y, List.mem_append_left _ hy3, hxy⟩
    · exact ⟨y, List.mem_append_right _ hy2, hxy⟩
  | case3 subs bits n0 rest sup existing h hne ih =>
    intro hsubs htm
    have h' : lookupA (supernetOf bits n0) subs = some existing := h
    rw [phase1_cons_merge h' (fun he => hne he)]
    have hn0 : Wf bits n0 := htm n0 (List.mem_cons_self _ _)
    have hsubs' : ∀ kv ∈ eraseA (supernetOf bits n0) subs,
        isSubnetOf bits kv.2 kv.1 = true ∧ Wf bits kv.1 ∧ Wf bits kv.2 :=
      fun kv hkv => hsubs kv (eraseA_subset kv hkv)
    have htm' : ∀ n ∈ supernetOf bits n0 :: rest, Wf bits n := by
      intro n hn
      rcases List.mem_cons.mp hn with rfl | hn2
      · exact wf_supernetOf hn0
      · exact htm n (List.mem_cons_of_mem _ hn2)
    refine (ih hsubs' htm').imp id ?_
    intro hcov x hx
    refine hcov x ?_
    obtain ⟨y, hy, hxy⟩ := hx
    rcases List.mem_append.mp hy with hy2 | hy2
    · rcases List.mem_cons.mp hy2 with rfl | hy3
      · exact ⟨supernetOf bits y,
          List.mem_append_left _ (List.mem_cons_self _ _),
          isSubnetOf_trans hxy (isSubnetOf_supernetOf hn0)⟩
      · exact ⟨y, List.mem_append_left _ (List.mem_cons_of_mem _ hy3), hxy⟩
    · obtain ⟨kv, hkv, hkv2⟩ := List.mem_map.mp hy2
      rcases mem_eraseA_or kv hkv with h3 | h3
      · exact ⟨y, List.mem_append_right _ (List.mem_map.mpr ⟨kv, h3, hkv2⟩), hxy⟩
      · refine ⟨supernetOf bits n0, List.mem_append_left _ (List.mem_cons_self _ _), ?_⟩
        have hvk := (hsubs kv hkv).1
        rw [hkv2, h3] at hvk
        exact isSubnetOf_trans hxy hvk
  | case4 subs bits n0 rest sup h ih =>
    intro hsubs htm
    have h' : lookupA (supernetOf bits n0) subs = none := h
    rw [phase1_cons_add h']
    have hn0 : Wf bits n0 := htm n0 (List.mem_cons_self _ _)
    have hsubs' : ∀ kv ∈ (supernetOf bits n0, n0) :: subs,
        isSubnetOf bits kv.2 kv.1 = true ∧ Wf bits kv.1 ∧ Wf bits kv.2 := by
      intro kv hkv
      rcases List.mem_cons.mp hkv with rfl | hkv2
      · exact ⟨isSubnetOf_supernetOf hn0, wf_supernetOf hn0, hn0⟩
      · exact hsubs kv hkv2
    refine (ih hsubs' (fun n hn => htm n (List.mem_cons_of_mem _ hn))).imp id ?_
    intro hcov x hx
    refine hcov x ?_
    obtain ⟨y, hy, hxy⟩ := hx
    rcases List.mem_append.mp hy with hy2 | hy2
    · rcases List.mem_cons.mp hy2 with rfl | hy3
      · exact ⟨y, List.mem_append_right _
          (List.mem_map.mpr ⟨(supernetOf bits y, y), List.mem_cons_self _ _, rfl⟩), hxy⟩
      · exact ⟨y, List.mem_append_left _ hy3, hxy⟩
    · obtain ⟨kv, hkv, hkv2⟩ := List.mem_map.mp hy2
      exact ⟨y, List.mem_append_right _
        (List.mem_map.mpr ⟨kv, List.mem_cons_of_mem _ hkv, hkv2⟩), hxy⟩

theorem collapseInternal_main (bits : Nat) (l : List Net)
    (hwf : ∀ n ∈ l, Wf bits n) :
    (∀ y ∈ collapseInternal bits l, Wf bits y) ∧
      (∀ x, Covers bits l x → Covers bits (collapseInternal bits l) x) := by
  have hp1 := phase1_main l.reverse [] bits (by simp) (fun n hn => hwf n (List.mem_reverse.mp hn))
  constructor
  · intro y hy
    unfold collapseInternal at hy
    have h2 := phase2_subset bits _ y hy
    rw [mem_sortNets] at h2
    obtain ⟨kv, hkv, hkv2⟩ := List.mem_map.mp h2
    rw [← hkv2]
    exact hp1.1 kv hkv
  · intro x hx
    have hx2 : Covers bits (l.reverse ++ ([] : List (Net × Net)).map (fun kv => kv.2)) x := by
      refine hx.mono ?_ |>.mono (fun y hy => hy)
      intro y hy
      simp only [List.map_nil, List.append_nil, List.mem_reverse]
      exact hy
    have hx3 := hp1.2 x hx2
    obtain ⟨y, hy, hxy⟩ := hx3
    have hy2 : y ∈ sortNets ((phase1 l.reverse [] bits).map (fun kv => kv.2)) :=
      mem_sortNets.mpr hy
    obtain ⟨z, hz, hyz⟩ := phase2_covers bits _ (sortNets_pairwise _) y hy2
    exact ⟨z, hz, isSubnetOf_trans hxy hyz⟩

theorem two_pow_trailingZeros_dvd (n : Nat) : 2 ^ trailingZeros n ∣ n := by
  induction n using trailingZeros.induct with
  | case1 => simp
  | case2 x hx hodd =>
    rw [trailingZeros]
    rw [if_neg hx, if_pos hodd]
    simp
  | case3 x hx hodd ih =>
    rw [trailingZeros, if_neg hx, if_neg hodd]
    have h4 : 2 * 2 ^ trailingZeros (x / 2) ∣ 2 * (x / 2) := mul_dvd_mul_left 2 ih
    have h5 : 2 * (x / 2) = x := by omega
    rw [h5] at h4
    have h6 : 2 ^ (trailingZeros (x / 2) + 1) = 2 * 2 ^ trailingZeros (x / 2) := by ring
    rw [h6]
    exact h4

theorem countRighthandZeroBits_le (number bits : Nat) :
    countRighthandZeroBits number bits ≤ bits := by
  unfold countRighthandZeroBits
  by_cases h : number = 0
  · rw [if_pos h]
  · rw [if_neg h]
    exact Nat.min_le_left _ _

theorem summarize_nbits_aligned {x bits : Nat} {k : Nat}
    (hk : k ≤ countRighthandZeroBits x bits) : x % 2 ^ k = 0 := by
  unfold countRighthandZeroBits at hk
  by_cases h : x = 0
  · rw [h]
    simp
  · rw [if_neg h] at hk
    have h2 : k ≤ trailingZeros x := le_trans hk (Nat.min_le_right _ _)
    have h3 : 2 ^ k ∣ x := dvd_trans (pow_dvd_pow 2 h2) (two_pow_trailingZeros_dvd x)
    obtain ⟨c, hc⟩ := h3
    rw [hc]
    exact Nat.mul_mod_right _ _

theorem summarizeLoop_wf (bits lastA : Nat) (hlast : lastA < 2 ^ bits) :
    ∀ firstA, ∀ n ∈ summarizeLoop bits lastA firstA, Wf bits n := by
  intro firstA
  induction firstA using summarizeLoop.induct bits lastA with
  | case1 x hx nbits nxt ih =>
    intro n hn
    rw [summarizeLoop_eq_pos hx] at hn
    have hnb : min (countRighthandZeroBits x bits) (bitLength (lastA - x + 1) - 1) ≤ bits :=
      le_trans (Nat.min_le_left _ _) (countRighthandZeroBits_le _ _)
    rcases List.mem_cons.mp hn with rfl | hn2
    · refine ⟨Nat.sub_le _ _, ?_, ?_⟩
      · show x % 2 ^ (bits - (bits - min (countRighthandZeroBits x bits)
          (bitLength (lastA - x + 1) - 1))) = 0
        have he : bits - (bits - min (countRighthandZeroBits x bits)
            (bitLength (lastA - x + 1) - 1)) = min (countRighthandZeroBits x bits)
            (bitLength (lastA - x + 1) - 1) := by omega
        rw [he]
        exact summarize_nbits_aligned (Nat.min_le_left _ _)
      · show x + 2 ^ (bits - (bits - min (countRighthandZeroBits x bits)
          (bitLength (lastA - x + 1) - 1))) ≤ 2 ^ bits
        have he : bits - (bits - min (countRighthandZeroBits x bits)
            (bitLength (lastA - x + 1) - 1)) = min (countRighthandZeroBits x bits)
            (bitLength (lastA - x + 1) - 1) := by omega
        rw [he]
        set k := min (countRighthandZeroBits x bits) (bitLength (lastA - x + 1) - 1) with hk
        have hal : x % 2 ^ k = 0 := summarize_nbits_aligned (Nat.min_le_left _ _)
        have hfull : 2 ^ bits = 2 ^ k * 2 ^ (bits - k) := by
          rw [← pow_add]
          congr 1
          omega
        have hxlt : x < 2 ^ k * 2 ^ (bits - k) := by omega
        have := aligned_add_le (Nat.pos_pow_of_pos _ (by norm_num)) hal hxlt
        omega
    · split at hn2
      · simp at hn2
      · exact ih n hn2
  | case2 x hx =>
    intro n hn
    rw [summarizeLoop_eq_neg hx] at hn
    simp at hn

theorem bitLength_le_span {a : Nat} (ha : 0 < a) : 2 ^ (bitLength a - 1) ≤ a := by
  unfold bitLength
  rw [if_neg (by omega)]
  simp only [Nat.add_sub_cancel]
  exact Nat.log2_self_le (by omega)

theorem summarizeLoop_covers (bits lastA : Nat) (hlast : lastA < 2 ^ bits) :
    ∀ firstA a, firstA ≤ a → a ≤ lastA →
      ∃ b ∈ summarizeLoop bits lastA firstA, b.addr ≤ a ∧ a ≤ Net.lastAddr bits b := by
  intro firstA
  induction firstA using summarizeLoop.induct bits lastA with
  | case1 x hx nbits nxt ih =>
    intro a hxa halast
    rw [summarizeLoop_eq_pos hx]
    set k := min (countRighthandZeroBits x bits) (bitLength (lastA - x + 1) - 1) with hk
    have hkb : k ≤ bits := le_trans (Nat.min_le_left _ _) (countRighthandZeroBits_le _ _)
    have hkp : (0:Nat) < 2 ^ k := Nat.pos_pow_of_pos _ (by norm_num)
    have he : bits - (bits - k) = k := by omega
    by_cases hin : a < x + 2 ^ k
    · refine ⟨⟨x, bits - k⟩, List.mem_cons_self _ _, hxa, ?_⟩
      show a ≤ x + 2 ^ (bits - (bits - k)) - 1
      rw [he]
      omega
    · push_neg at hin
      by_cases hstop : x + 2 ^ k - 1 = 2 ^ bits - 1
      · exfalso
        omega
      · rw [if_neg hstop]
        have hiha : ∃ b ∈ summarizeLoop bits lastA (x + 2 ^ k),
            b.addr ≤ a ∧ a ≤ Net.lastAddr bits b := ih a hin halast
        obtain ⟨b, hb, hba⟩ := hiha
        exact ⟨b, List.mem_cons_of_mem _ hb, hba⟩
  | case2 x hx =>
    intro a hxa halast
    omega

theorem findRanges_covers (l : List Nat) : ∀ f lastA a, f ≤ lastA →
    ((f ≤ a ∧ a ≤ lastA) ∨ a ∈ l) →
    ∃ r ∈ findRanges f lastA l, r.1 ≤ a ∧ a ≤ r.2 := by
  induction l with
  | nil =>
    intro f lastA a _ ha
    rcases ha with ⟨h1, h2⟩ | h3
    · exact ⟨(f, lastA), List.mem_cons_self _ _, h1, h2⟩
    · simp at h3
  | cons v rest ih =>
    intro f lastA a hfl ha
    rw [findRanges]
    by_cases hv : v ≠ lastA + 1
    · rw [if_pos hv]
      rcases ha with ⟨h1, h2⟩ | h3
      · exact ⟨(f, lastA), List.mem_cons_self _ _, h1, h2⟩
      · rcases List.mem_cons.mp h3 with he | h4
        · obtain ⟨r, hr, hra⟩ := ih v v a (le_refl v)
            (Or.inl ⟨le_of_eq he.symm, le_of_eq he⟩)
          exact ⟨r, List.mem_cons_of_mem _ hr, hra⟩
        · obtain ⟨r, hr, hra⟩ := ih v v a (le_refl v) (Or.inr h4)
          exact ⟨r, List.mem_cons_of_mem _ hr, hra⟩
    · rw [if_neg hv]
      push_neg at hv
      rcases ha with ⟨h1, h2⟩ | h3
      · exact ih f v a (by omega) (Or.inl ⟨h1, by omega⟩)
      · rcases List.mem_cons.mp h3 with he | h4
        · exact ih f v a (by omega) (Or.inl ⟨by omega, le_of_eq he⟩)
        · exact ih f v a (by omega) (Or.inr h4)

theorem findRanges_bound (l : List Nat) (c : Nat) : ∀ f lastA, lastA < c →
    (∀ x ∈ l, x < c) → ∀ r ∈ findRanges f lastA l, r.2 < c := by
  induction l with
  | nil =>
    intro f lastA hl _ r hr
    rcases List.mem_cons.mp hr with rfl | h2
    · exact hl
    · simp at h2
  | cons b rest ih =>
    intro f lastA hl hall r hr
    rw [findRanges] at hr
    by_cases hb : b ≠ lastA + 1
    · rw [if_pos hb] at hr
      rcases List.mem_cons.mp hr with rfl | h2
      · exact hl
      · exact ih b b (hall b (List.mem_cons_self _ _))
          (fun x hx => hall x (List.mem_cons_of_mem _ hx)) r h2
    · rw [if_neg hb] at hr
      exact ih f b (hall b (List.mem_cons_self _ _))
        (fun x hx => hall x (List.mem_cons_of_mem _ hx)) r hr

theorem mem_insSorted {a x : Nat} {l : List Nat} : x ∈ insSorted a l ↔ x = a ∨ x ∈ l := by
  induction l with
  | nil => simp [insSorted]
  | cons b rest ih =>
    rw [insSorted]
    by_cases h1 : a < b
    · rw [if_pos h1]
      simp only [List.mem_cons]
    · rw [if_neg h1]
      by_cases h2 : a = b
      · rw [if_pos h2]
        simp only [List.mem_cons]
        constructor
        · tauto
        · rintro (rfl | h3)
          · left; omega
          · exact h3
      · rw [if_neg h2]
        simp only [List.mem_cons, ih]
        tauto

theorem mem_sortedDedup {x : Nat} {l : List Nat} : x ∈ sortedDedup l ↔ x ∈ l := by
  induction l with
  | nil => simp [sortedDedup]
  | cons a rest ih =>
    simp only [sortedDedup, List.foldr_cons] at ih ⊢
    rw [mem_insSorted, ih, List.mem_cons]

/-- `collapse_addresses` keeps every input network covered and returns
well-formed networks. -/
theorem collapse_main (bits : Nat) (input : List Net)
    (hwf : ∀ n ∈ input, Wf bits n) :
    (∀ y ∈ collapse bits input, Wf bits y) ∧
      (∀ x ∈ input, Covers bits (collapse bits input) x) := by
  unfold collapse
  dsimp only
  have hipsbound : ∀ v ∈ sortedDedup ((input.filter (fun n => n.pfx = bits)).map
      (fun n => n.addr)), v < 2 ^ bits := by
    intro v hv
    rw [mem_sortedDedup] at hv
    obtain ⟨n, hn, hn2⟩ := List.mem_map.mp hv
    rw [← hn2]
    exact addr_lt_of_wf (hwf n (List.mem_filter.mp hn).1)
  have haddrwf : ∀ y ∈ (findAddressRange (sortedDedup ((input.filter (fun n => n.pfx = bits)).map
      (fun n => n.addr)))).flatMap (fun r => summarizeLoop bits r.2 r.1), Wf bits y := by
    intro y hy
    rw [List.mem_flatMap] at hy
    obtain ⟨r, hr, hy2⟩ := hy
    have hrb : r.2 < 2 ^ bits := by
      cases hs : sortedDedup ((input.filter (fun n => n.pfx = bits)).map (fun n => n.addr)) with
      | nil => rw [hs] at hr; simp [findAddressRange] at hr
      | cons a rest =>
        rw [hs] at hr
        rw [findAddressRange] at hr
        refine findRanges_bound rest (2 ^ bits) a a ?_ ?_ r hr
        · exact hipsbound a (by rw [hs]; exact List.mem_cons_self _ _)
        · intro x hx
          exact hipsbound x (by rw [hs]; exact List.mem_cons_of_mem _ hx)
    exact summarizeLoop_wf bits r.2 hrb r.1 y hy2
  have hlistwf : ∀ y ∈ (findAddressRange (sortedDedup ((input.filter (fun n => n.pfx = bits)).map
      (fun n => n.addr)))).flatMap (fun r => summarizeLoop bits r.2 r.1) ++
        input.filter (fun n => ¬ n.pfx = bits), Wf bits y := by
    intro y hy
    rcases List.mem_append.mp hy with hy2 | hy2
    · exact haddrwf y hy2
    · exact hwf y (List.mem_filter.mp hy2).1
  have hint := collapseInternal_main bits _ hlistwf
  refine ⟨hint.1, ?_⟩
  intro x hx
  by_cases hpfx : x.pfx = bits
  · -- the single-address path: sorted, deduplicated, grouped, summarised
    have hmem : x.addr ∈ sortedDedup ((input.filter (fun n => n.pfx = bits)).map
        (fun n => n.addr)) := by
      rw [mem_sortedDedup]
      exact List.mem_map.mpr ⟨x, List.mem_filter.mpr ⟨hx, by simp [hpfx]⟩, rfl⟩
    refine hint.2 x ?_
    cases hs : sortedDedup ((input.filter (fun n => n.pfx = bits)).map (fun n => n.addr)) with
    | nil => rw [hs] at hmem; simp at hmem
    | cons a rest =>
      rw [hs] at hmem
      have hcov : ∃ r ∈ findRanges a a rest, r.1 ≤ x.addr ∧ x.addr ≤ r.2 := by
        rcases List.mem_cons.mp hmem with he | h4
        · exact findRanges_covers rest a a x.addr (le_refl a)
            (Or.inl ⟨le_of_eq he.symm, le_of_eq he⟩)
        · exact findRanges_covers rest a a x.addr (le_refl a) (Or.inr h4)
      obtain ⟨r, hr, hr1, hr2⟩ := hcov
      have hrb : r.2 < 2 ^ bits := by
        refine findRanges_bound rest (2 ^ bits) a a ?_ ?_ r hr
        · exact hipsbound a (by rw [hs]; exact List.mem_cons_self _ _)
        · intro v hv
          exact hipsbound v (by rw [hs]; exact List.mem_cons_of_mem _ hv)
      obtain ⟨b, hb, hb1, hb2⟩ := summarizeLoop_covers bits r.2 hrb r.1 x.addr hr1 hr2
      refine ⟨b, List.mem_append_left _ ?_, ?_⟩
      · rw [List.mem_flatMap]
        refine ⟨r, ?_, hb⟩
        rw [findAddressRange]
        exact hr
      · simp only [isSubnetOf, Bool.and_eq_true, decide_eq_true_eq]
        refine ⟨hb1, ?_⟩
        have hsz : Net.size bits x = 1 := by
          unfold Net.size
          rw [hpfx]
          simp
        unfold Net.lastAddr
        rw [hsz]
        simpa using hb2
  · refine hint.2 x ?_
    exact ⟨x, List.mem_append_right _ (List.mem_filter.mpr ⟨hx, by simp [hpfx]⟩),
      isSubnetOf_refl bits x⟩

/-! ## Coverage preservation through the merge loops -/

theorem innerScan_main (bits : Nat) (thr : Int) (minPfx targetMax : Nat)
    (nets : List Net) (i : Nat) (c : Bool) :
    (∀ n ∈ nets, Wf bits n) →
    ((∀ n ∈ (innerScan bits thr minPfx targetMax nets i c).1, Wf bits n) ∧
      (∀ x, Covers bits nets x →
        Covers bits (innerScan bits thr minPfx targetMax nets i c).1 x)) := by
  induction nets, i, c using innerScan.induct bits thr minPfx targetMax with
  | case1 nets i c h n1 n2 rest2 hd s hfms hcost ih =>
    intro hwf
    rw [innerScan_eq_merge h hd hfms hcost]
    have hdec : nets = nets.take i ++ nets.drop i := (List.take_append_drop i nets).symm
    have hmemdrop : ∀ y ∈ n1 :: n2 :: rest2, y ∈ nets := by
      intro y hy
      have hy2 : y ∈ nets.drop i := hd ▸ hy
      exact List.mem_of_mem_drop hy2
    have hpairwf : ∀ m ∈ [n1, n2], Wf bits m := by
      intro m hm
      rcases List.mem_cons.mp hm with rfl | hm2
      · exact hwf m (hmemdrop m (List.mem_cons_self _ _))
      · rcases List.mem_cons.mp hm2 with rfl | hm3
        · exact hwf m (hmemdrop m (List.mem_cons_of_mem _ (List.mem_cons_self _ _)))
        · simp at hm3
    have hnewwf : ∀ n ∈ nets.take i ++ s :: rest2, Wf bits n := by
      intro n hn
      rcases List.mem_append.mp hn with h1 | h1
      · exact hwf n (List.mem_of_mem_take h1)
      · rcases List.mem_cons.mp h1 with rfl | h2
        · exact fms_wf hpairwf hfms
        · exact hwf n (hmemdrop n (List.mem_cons_of_mem _ (List.mem_cons_of_mem _ h2)))
    have hcol := collapse_main bits _ hnewwf
    have hih := ih hcol.1
    refine ⟨hih.1, ?_⟩
    intro x hx
    refine hih.2 x ?_
    obtain ⟨y, hy, hxy⟩ := hx
    have hy2 : y ∈ nets.take i ++ n1 :: n2 :: rest2 := by
      rw [hdec, hd] at hy
      exact hy
    have hcovnew : Covers bits (nets.take i ++ s :: rest2) x := by
      rcases List.mem_append.mp hy2 with h1 | h1
      · exact ⟨y, List.mem_append_left _ h1, hxy⟩
      · rcases List.mem_cons.mp h1 with rfl | h2
        · exact ⟨s, List.mem_append_right _ (List.mem_cons_self _ _),
            isSubnetOf_trans hxy ((fms_spec hfms).1 y (List.mem_cons_self _ _))⟩
        · rcases List.mem_cons.mp h2 with rfl | h3
          · exact ⟨s, List.mem_append_right _ (List.mem_cons_self _ _),
              isSubnetOf_trans hxy ((fms_spec hfms).1 y
                (List.mem_cons_of_mem _ (List.mem_cons_self _ _)))⟩
          · exact ⟨y, List.mem_append_right _ (List.mem_cons_of_mem _ h3), hxy⟩
    obtain ⟨y', hy', hxy'⟩ := hcovnew
    obtain ⟨z, hz, hyz⟩ := hcol.2 y' hy'
    exact ⟨z, hz, isSubnetOf_trans hxy' hyz⟩
  | case2 nets i c h n1 n2 rest2 hd s hfms hcost ih =>
    intro hwf
    rw [innerScan_eq_skip h hd hfms hcost]
    exact ih hwf
  | case3 nets i c h n1 n2 rest2 hd hfms ih =>
    intro hwf
    rw [innerScan_eq_none h hd hfms]
    exact ih hwf
  | case4 nets i c h hd =>
    obtain ⟨a, b, r, habr⟩ := drop_two h.1
    exact absurd habr (hd a b r)
  | case5 nets i c h =>
    intro hwf
    rw [innerScan_eq_exit h]
    exact ⟨hwf, fun x hx => hx⟩

theorem whileChanged_main (bits : Nat) (thr : Int) (minPfx targetMax : Nat)
    (nets : List Net) :
    (∀ n ∈ nets, Wf bits n) →
    ((∀ n ∈ whileChanged bits thr minPfx targetMax nets, Wf bits n) ∧
      (∀ x, Covers bits nets x →
        Covers bits (whileChanged bits thr minPfx targetMax nets) x)) := by
  induction nets using whileChanged.induct bits thr minPfx targetMax with
  | case1 nets h r hflag ih =>
    intro hwf
    have hr : r = innerScan bits thr minPfx targetMax (sortNets nets) 0 false := rfl
    have heq : whileChanged bits thr minPfx targetMax nets =
        whileChanged bits thr minPfx targetMax
          (innerScan bits thr minPfx targetMax (sortNets nets) 0 false).1 := by
      rw [whileChanged, if_pos h]
      rw [if_pos (hr ▸ hflag)]
    rw [heq]
    have hsortwf : ∀ n ∈ sortNets nets, Wf bits n := by
      intro n hn
      exact hwf n (mem_sortNets.mp hn)
    have hscan := innerScan_main bits thr minPfx targetMax (sortNets nets) 0 false hsortwf
    have hih := ih hscan.1
    refine ⟨hih.1, ?_⟩
    intro x hx
    refine hih.2 x ?_
    refine hscan.2 x ?_
    exact hx.mono (fun y hy => mem_sortNets.mpr hy)
  | case2 nets h r hflag =>
    intro hwf
    have hr : r = innerScan bits thr minPfx targetMax (sortNets nets) 0 false := rfl
    have heq : whileChanged bits thr minPfx targetMax nets =
        (innerScan bits thr minPfx targetMax (sortNets nets) 0 false).1 := by
      rw [whileChanged, if_pos h]
      rw [if_neg (hr ▸ hflag)]
    rw [heq]
    have hsortwf : ∀ n ∈ sortNets nets, Wf bits n := by
      intro n hn
      exact hwf n (mem_sortNets.mp hn)
    have hscan := innerScan_main bits thr minPfx targetMax (sortNets nets) 0 false hsortwf
    refine ⟨hscan.1, ?_⟩
    intro x hx
    refine hscan.2 x ?_
    exact hx.mono (fun y hy => mem_sortNets.mpr hy)
  | case3 nets h =>
    intro hwf
    rw [whileChanged, if_neg h]
    exact ⟨hwf, fun x hx => hx⟩

theorem thresholdLoop_main (bits minPfx targetMax : Nat) :
    ∀ (ts : List Int) (nets : List Net), (∀ n ∈ nets, Wf bits n) →
    ((∀ n ∈ thresholdLoop bits minPfx targetMax ts nets, Wf bits n) ∧
      (∀ x, Covers bits nets x →
        Covers bits (thresholdLoop bits minPfx targetMax ts nets) x)) := by
  intro ts
  induction ts with
  | nil =>
    intro nets hwf
    rw [thresholdLoop]
    exact ⟨hwf, fun x hx => hx⟩
  | cons t ts ih =>
    intro nets hwf
    have hw := whileChanged_main bits t minPfx targetMax nets hwf
    by_cases hlen : (whileChanged bits t minPfx targetMax nets).length ≤ targetMax
    · have heq : thresholdLoop bits minPfx targetMax (t :: ts) nets =
          whileChanged bits t minPfx targetMax nets := by
        rw [thresholdLoop]
        rw [if_pos hlen]
      rw [heq]
      exact hw
    · have heq : thresholdLoop bits minPfx targetMax (t :: ts) nets =
          thresholdLoop bits minPfx targetMax ts (whileChanged bits t minPfx targetMax nets) := by
        rw [thresholdLoop]
        rw [if_neg hlen]
      rw [heq]
      have hih := ih _ hw.1
      refine ⟨hih.1, ?_⟩
      intro x hx
      exact hih.2 x (by
        obtain ⟨y, hy, hxy⟩ := hx
        obtain ⟨z, hz, hyz⟩ := hw.2 x ⟨y, hy, hxy⟩
        exact ⟨z, hz, hyz⟩)

/-- The compactor never loses coverage: every input block stays inside
some output block. -/
theorem compact_networks_main (bits : Nat) (input : List Net) (targetMax minPfx : Nat)
    (hwf : ∀ n ∈ input, Wf bits n) :
    ∀ x ∈ input, Covers bits (compact_networks bits input targetMax minPfx) x := by
  unfold compact_networks
  dsimp only
  have hcol := collapse_main bits input hwf
  by_cases h : (collapse bits input).length ≤ targetMax
  · rw [if_pos h]
    exact hcol.2
  · rw [if_neg h]
    intro x hx
    obtain ⟨y, hy, hxy⟩ := hcol.2 x hx
    have ht := thresholdLoop_main bits minPfx targetMax thresholds (collapse bits input) hcol.1
    obtain ⟨z, hz, hyz⟩ := ht.2 y ⟨y, hy, isSubnetOf_refl bits y⟩
    exact ⟨z, hz, isSubnetOf_trans hxy hyz⟩

theorem verify_coverage_of_covers {bits : Nat} {origs comp : List Net}
    (h : ∀ x ∈ origs, Covers bits comp x) : verify_coverage bits origs comp = (true, []) := by
  unfold verify_coverage
  by_cases he : origs = []
  · rw [if_pos he]
  · rw [if_neg he]
    have hfil : origs.filter
        (fun o => ¬ (comp.any (fun c => isSubnetOf bits o c || decide (o = c)))) = [] := by
      rw [List.filter_eq_nil]
      intro a ha
      obtain ⟨y, hy, hxy⟩ := h a ha
      simp only [decide_not, Bool.not_eq_true', decide_eq_false_iff_not, Decidable.not_not]
      simp only [List.any_eq_true, Bool.or_eq_true, decide_eq_true_eq]
      exact ⟨y, hy, Or.inl hxy⟩
    rw [hfil]
    rfl

/-! ## Structure of `splitOnChar` results -/

theorem splitAux_no_sep {sep : Char} : ∀ {l : List Char}, sep ∉ l →
    splitAux sep l = (l, []) := by
  intro l
  induction l with
  | nil => intro _; rfl
  | cons c rest ih =>
    intro h
    rw [splitAux]
    have hc : ¬ c = sep := fun he => h (he ▸ List.mem_cons_self _ _)
    rw [ih (fun hm => h (List.mem_cons_of_mem _ hm))]
    simp [hc]

theorem splitOnChar_no_sep {sep : Char} {l : List Char} (h : sep ∉ l) :
    splitOnChar sep l = [l] := by
  unfold splitOnChar
  rw [splitAux_no_sep h]

theorem splitOnChar_cons_sep {sep : Char} {c : Char} {rest : List Char} (hc : c = sep) :
    splitOnChar sep (c :: rest) = [] :: splitOnChar sep rest := by
  unfold splitOnChar
  rw [splitAux]
  simp [hc]

theorem splitOnChar_cons_ne {sep : Char} {c : Char} {rest : List Char} (hc : ¬ c = sep) :
    splitOnChar sep (c :: rest) =
      (c :: (splitOnChar sep rest).head!) :: (splitOnChar sep rest).tail := by
  unfold splitOnChar
  rw [splitAux]
  simp [hc]

theorem splitOnChar_ne_nil (sep : Char) (l : List Char) : splitOnChar sep l ≠ [] := by
  unfold splitOnChar
  simp

theorem splitOnChar_singleton {sep : Char} : ∀ {l x : List Char},
    splitOnChar sep l = [x] → l = x := by
  intro l
  induction l with
  | nil =>
    intro x h
    unfold splitOnChar splitAux at h
    injection h with h1
    all_goals exact h1
  | cons c rest ih =>
    intro x h
    by_cases hc : c = sep
    · rw [splitOnChar_cons_sep hc] at h
      injection h with h1 h2
      exact absurd h2 (splitOnChar_ne_nil sep rest)
    · rw [splitOnChar_cons_ne hc] at h
      injection h with h1 h2
      cases hr : splitOnChar sep rest with
      | nil => exact absurd hr (splitOnChar_ne_nil sep rest)
      | cons y ys =>
        rw [hr] at h1 h2
        simp only [List.head!, List.tail] at h1 h2
        have : rest = y := by
          apply ih
          rw [hr, h2]
        rw [← h1, this]

theorem splitOnChar_pair {sep : Char} : ∀ {l a b : List Char},
    splitOnChar sep l = [a, b] → l = a ++ sep :: b := by
  intro l
  induction l with
  | nil =>
    intro a b h
    unfold splitOnChar splitAux at h
    injection h with h1 h2
    exact absurd h2.symm (List.cons_ne_nil _ _)
  | cons c rest ih =>
    intro a b h
    by_cases hc : c = sep
    · rw [splitOnChar_cons_sep hc] at h
      injection h with h1 h2
      have : rest = b := splitOnChar_singleton h2
      rw [← h1, this, hc]
      rfl
    · rw [splitOnChar_cons_ne hc] at h
      injection h with h1 h2
      cases hr : splitOnChar sep rest with
      | nil => exact absurd hr (splitOnChar_ne_nil sep rest)
      | cons y ys =>
        rw [hr] at h1 h2
        simp only [List.head!, List.tail] at h1 h2
        have hrest : rest = y ++ sep :: b := by
          apply ih
          rw [hr, h2]
        rw [← h1, hrest]
        rfl

/-! ## Character-class facts used by the netset line processing -/

theorem isPySpace_cases {c : Char} (h : isPySpace c = true) :
    c = (' ') ∨ c = ('\t') ∨ c = ('\n') ∨ c = ('\r') ∨ c = ('\x0b') ∨ c = ('\x0c') := by
  simp only [isPySpace, Bool.or_eq_true, decide_eq_true_eq] at h
  tauto

theorem hexColon_not_space {c : Char} (h : isHexColon c = true) : isPySpace c = false := by
  by_contra hc
  rw [Bool.not_eq_false] at hc
  rcases isPySpace_cases hc with rfl | rfl | rfl | rfl | rfl | rfl <;>
    exact absurd h (by decide)

theorem digit_not_space {c : Char} (h : c.isDigit = true) : isPySpace c = false := by
  by_contra hc
  rw [Bool.not_eq_false] at hc
  rcases isPySpace_cases hc with rfl | rfl | rfl | rfl | rfl | rfl <;>
    exact absurd h (by decide)

theorem hexColon_ne_nl {c : Char} (h : isHexColon c = true) : ¬ c = ('\n') := by
  intro he
  subst he
  exact absurd h (by decide)

theorem digit_ne_nl {c : Char} (h : c.isDigit = true) : ¬ c = ('\n') := by
  intro he
  subst he
  exact absurd h (by decide)

theorem hexColon_ne_hash {c : Char} (h : isHexColon c = true) : ¬ c = ('#') := by
  intro he
  subst he
  exact absurd h (by decide)

theorem hexColon_ne_semi {c : Char} (h : isHexColon c = true) : ¬ c = (';') := by
  intro he
  subst he
  exact absurd h (by decide)

/-- Decomposition of a line accepted by the IPv6 CIDR regex: at least two
class characters, a slash, and a non-empty digit suffix. -/
theorem re6_struct {line : String} (h : re_ipv6_cidr line = true) :
    ∃ c d tl pfx, line.data = c :: d :: (tl ++ ('/') :: pfx) ∧ isHexColon c = true ∧
      isHexColon d = true ∧ (∀ x ∈ tl, isHexColon x = true) ∧ pfx ≠ [] ∧
      (∀ x ∈ pfx, x.isDigit = true) := by
  unfold re_ipv6_cidr at h
  split at h
  case h_2 => exact absurd h (by simp)
  case h_1 addr pfx heq =>
    simp only [Bool.and_eq_true, decide_eq_true_eq, List.all_eq_true] at h
    obtain ⟨⟨⟨⟨⟨hlen, hall⟩, hlast⟩, hpne⟩, hplen⟩, hdig⟩ := h
    have hline := splitOnChar_pair heq
    cases addr with
    | nil => simp at hlen
    | cons c rest =>
      cases rest with
      | nil => simp at hlen
      | cons d tl =>
        refine ⟨c, d, tl, pfx, ?_, ?_, ?_, ?_, hpne, hdig⟩
        · rw [hline]; rfl
        · exact hall c (List.mem_cons_self _ _)
        · exact hall d (List.mem_cons_of_mem _ (List.mem_cons_self _ _))
        · exact fun x hx => hall x (List.mem_cons_of_mem _ (List.mem_cons_of_mem _ hx))

/-- Every line the IPv6 CIDR regex accepts is newline-free, non-empty, does
not start with a comment marker, and is untouched by the leading-`IP`
stripper. -/
theorem re6_facts {line : String} (h : re_ipv6_cidr line = true) :
    ('\n') ∉ line.data ∧ line.data ≠ [] ∧
      line.data.head? ≠ some ('#') ∧ line.data.head? ≠ some (';') ∧
      stripIpPfx line.data = line.data := by
  obtain ⟨c, d, tl, pfx, hline, hc, hd, htl, hpne, hdig⟩ := re6_struct h
  refine ⟨?_, ?_, ?_, ?_, ?_⟩
  · intro hm
    rw [hline] at hm
    simp only [List.mem_cons, List.mem_append] at hm
    rcases hm with rfl | rfl | hm | h1 | hm
    · exact hexColon_ne_nl hc rfl
    · exact hexColon_ne_nl hd rfl
    · exact hexColon_ne_nl (htl _ hm) rfl
    · exact absurd h1 (by decide)
    · exact digit_ne_nl (hdig _ hm) rfl
  · rw [hline]; exact List.cons_ne_nil _ _
  · rw [hline]
    intro he
    injection he with he
    exact hexColon_ne_hash hc he
  · rw [hline]
    intro he
    injection he with he
    exact hexColon_ne_semi hc he
  · rw [hline]
    cases tl with
    | nil =>
      simp only [List.nil_append]
      rw [stripIpPfx]
      rw [if_neg]
      intro hcond
      exact absurd hcond.2.2 (by decide)
    | cons e tl2 =>
      simp only [List.cons_append]
      rw [stripIpPfx]
      rw [if_neg]
      intro hcond
      have h3 := hcond.2.2
      have h4 := hexColon_not_space (htl e (List.mem_cons_self _ _))
      rw [h3] at h4
      exact absurd h4 (by decide)

theorem dropWhile_append_singleton_ne_nil {p : Char → Bool} {c : Char} (h : p c = false) :
    ∀ l : List Char, (l ++ [c]).dropWhile p ≠ [] := by
  intro l
  induction l with
  | nil =>
    rw [List.nil_append, List.dropWhile_cons, h]
    simp
  | cons a as ih =>
    rw [List.cons_append, List.dropWhile_cons]
    by_cases hp : p a = true
    · rw [hp]
      simpa using ih
    · rw [Bool.not_eq_true] at hp
      rw [hp]
      simp

theorem pyStripList_cons_ne_nil {c : Char} {t : List Char} (h : isPySpace c = false) :
    pyStripList (c :: t) ≠ [] := by
  unfold pyStripList
  rw [List.dropWhile_cons, h]
  simp only [Bool.false_eq_true, if_false]
  intro he
  rw [List.reverse_eq_nil_iff, List.reverse_cons] at he
  exact dropWhile_append_singleton_ne_nil h _ he

theorem pyStrip_ne_empty_of_data {s : String} {c : Char} {rest : List Char}
    (hd : s.data = c :: rest) (h : isPySpace c = false) : ¬ pyStrip s = ("") := by
  intro he
  have h2 : pyStripList s.data = [] := congrArg String.data he
  rw [hd] at h2
  exact pyStripList_cons_ne_nil h h2

/-- One loop iteration of `netset_expand` on a stripped line that matches
the IPv6 regex but fails semantic parsing: the passthrough fallback. -/
theorem netsetLine_fallback (cfg : IPCfg) (suffix : String) (acc : List String) (line : String)
    (hstrip : pyStrip line = line) (hre : re_ipv6_cidr line = true)
    (hparse : parseIPv6Cidr line = none) :
    netsetLine cfg suffix acc line = Except.ok (acc ++ [s!"IP-CIDR,{line}{suffix}"]) := by
  obtain ⟨hnl, hne, hh1, hh2, hip⟩ := re6_facts hre
  have ht : pyStripList line.data = line.data := congrArg String.data hstrip
  unfold netsetLine
  dsimp only
  rw [ht]
  rw [if_neg hne]
  have hh : ¬ (line.data.head? = some ('#') ∨ line.data.head? = some (';')) := by
    rintro (h | h)
    · exact hh1 h
    · exact hh2 h
  rw [if_neg hh]
  rw [hip]
  have heta : (⟨line.data⟩ : String) = line := rfl
  rw [heta]
  rw [if_pos hre]
  unfold ipv6_cidr_to_blocks
  rw [hparse]

/-- `netset_expand` on a single malformed-but-regex-matching IPv6 line
under the default configuration: the suffixed passthrough line. -/
theorem netset_expand_fallback (cfg : IPCfg) (suffix line : String)
    (hcomp : cfg.enableCompaction = false)
    (hstrip : pyStrip line = line) (hre : re_ipv6_cidr line = true)
    (hparse : parseIPv6Cidr line = none) :
    netset_expand cfg line suffix = Except.ok [s!"IP-CIDR,{line}{suffix}"] := by
  have hnl := (re6_facts hre).1
  have hsplit : splitLines line = [line] := by
    unfold splitLines
    rw [splitOnChar_no_sep hnl]
    rfl
  have hkey : pyStrip (s!"IP-CIDR,{line}{suffix}") ≠ ("") := by
    have hd : ∃ r, (s!"IP-CIDR,{line}{suffix}").data = ('I') :: r := ⟨_, rfl⟩
    obtain ⟨r, hr⟩ := hd
    exact pyStrip_ne_empty_of_data hr (by decide)
  have h1 : List.foldlM (fun acc l => netsetLine cfg suffix acc l) ([] : List String) [line] =
      Except.ok [s!"IP-CIDR,{line}{suffix}"] := by
    show (netsetLine cfg suffix [] line >>=
      fun b => List.foldlM (fun acc l => netsetLine cfg suffix acc l) b []) = _
    rw [netsetLine_fallback cfg suffix [] line hstrip hre hparse]
    rfl
  have hded : dedupe_lines [s!"IP-CIDR,{line}{suffix}"] = [s!"IP-CIDR,{line}{suffix}"] := by
    unfold dedupe_lines
    rw [dedupeGo_cons_keep ⟨hkey, by simp⟩]
    rfl
  unfold netset_expand
  rw [hsplit]
  rw [h1]
  show (if cfg.enableCompaction = true then
      applyCompaction cfg suffix (dedupe_lines [s!"IP-CIDR,{line}{suffix}"])
    else pure (dedupe_lines [s!"IP-CIDR,{line}{suffix}"])) = Except.ok [s!"IP-CIDR,{line}{suffix}"]
  rw [hcomp, hded]
  rfl

/-! ## The claims -/

/-- C1: Coverage invariant of compaction — for every finite list of valid
(well-formed) same-family blocks and every `targetMax` and `minPrefix`,
every input block is a subnet of (or equal to) some block of the output of
`compact_networks`, and `verify_coverage` on input and output returns
`(true, [])`. -/
theorem C1_compaction_coverage (bits targetMax minPfx : Nat) (input : List Net)
    (hwf : ∀ n ∈ input, Wf bits n) :
    (∀ x ∈ input, ∃ y ∈ compact_networks bits input targetMax minPfx,
      isSubnetOf bits x y = true) ∧
    verify_coverage bits input (compact_networks bits input targetMax minPfx) = (true, []) := by
  have hcov := compact_networks_main bits input targetMax minPfx hwf
  exact ⟨fun x hx => hcov x hx, verify_coverage_of_covers hcov⟩

theorem C1_compaction_coverage_witness :
    (∀ n ∈ [Net.mk 3232235520 24], Wf 32 n) ∧
    ((∀ x ∈ [Net.mk 3232235520 24], ∃ y ∈ compact_networks 32 [Net.mk 3232235520 24] 200 11,
        isSubnetOf 32 x y = true) ∧
      verify_coverage 32 [Net.mk 3232235520 24]
        (compact_networks 32 [Net.mk 3232235520 24] 200 11) = (true, [])) :=
  ⟨by decide, C1_compaction_coverage 32 200 11 [Net.mk 3232235520 24] (by decide)⟩

/-- C3 counterexample: `minPrefix` is not a hard floor on the output —
an input block coarser than `minPrefix` (here `0.0.0.0/0` against a floor
of `/11`) passes through `compact_networks` unchanged, so the output
contains a block with prefix length strictly below `minPrefix`.  The
floor restricts only supernets created by the merge loop
(`find_minimal_supernet`), not blocks already present. -/
theorem C3_counterexample :
    (∀ n ∈ [Net.mk 0 0], Wf 32 n) ∧
    ∃ y ∈ compact_networks 32 [Net.mk 0 0] 200 11, y.pfx < 11 := by
  refine ⟨by decide, ?_⟩
  have h2 : phase1 [Net.mk 0 0] [] 32 = [(supernetOf 32 (Net.mk 0 0), Net.mk 0 0)] := by
    rw [phase1_cons_add (show lookupA (supernetOf 32 (Net.mk 0 0)) [] = none from rfl),
      phase1_nil]
  have h1 : collapse 32 [Net.mk 0 0] = [Net.mk 0 0] := by
    unfold collapse collapseInternal
    dsimp only
    show phase2 32 (sortNets ((phase1 [Net.mk 0 0] [] 32).map (fun kv => kv.2))) = [Net.mk 0 0]
    rw [h2]
    rfl
  have h3 : compact_networks 32 [Net.mk 0 0] 200 11 = [Net.mk 0 0] := by
    unfold compact_networks
    dsimp only
    rw [h1]
    rfl
  rw [h3]
  exact ⟨Net.mk 0 0, List.mem_cons_self _ _, by decide⟩

/-- C3 amended: `minPrefix` is a floor on every supernet that
`find_minimal_supernet` creates — any network it returns has prefix length
at least `minPrefix` (and at most the address width, aligned); input
blocks that are already coarser than `minPrefix` are not affected by the
floor and pass through compaction unchanged. -/
theorem C3_amended_floor_on_created_supernets (bits : Nat) (nets : List Net) (minPfx : Nat)
    (s : Net) (h : find_minimal_supernet bits nets minPfx = some s) :
    minPfx ≤ s.pfx ∧ s.pfx ≤ bits := by
  have hs := fms_spec h
  exact ⟨hs.2.1, hs.2.2.1⟩

theorem C3_amended_floor_witness :
    find_minimal_supernet 32 [Net.mk 0 32] 8 = some (Net.mk 0 8) ∧
    (8 ≤ (Net.mk 0 8).pfx ∧ (Net.mk 0 8).pfx ≤ 32) :=
  ⟨rfl, C3_amended_floor_on_created_supernets 32 [Net.mk 0 32] 8 (Net.mk 0 8) rfl⟩

/-- C6 counterexample: `find_minimal_supernet` does not always succeed for
a pair — with two well-formed `/32` hosts at the two halves of the IPv4
space and `minPrefix = 32` (which does not exceed the address width), the
scan over prefixes `32..32` finds no covering supernet and the function
returns `none`; nothing "self-resolves", since the scan never visits
prefixes below `minPrefix`. -/
theorem C6_counterexample :
    (∀ n ∈ [Net.mk 0 32, Net.mk 2147483648 32], Wf 32 n) ∧
    find_minimal_supernet 32 [Net.mk 0 32, Net.mk 2147483648 32] 32 = none :=
  ⟨by decide, rfl⟩

/-- C6 amended: with no floor (`minPrefix = 0`) the scan always succeeds
on a non-empty list of well-formed networks: the first candidate is the
whole address space, so `find_minimal_supernet` returns `some ⟨0, 0⟩`. -/
theorem C6_amended_succeeds_without_floor (bits : Nat) (n0 : Net) (rest : List Net)
    (hwf : ∀ n ∈ n0 :: rest, Wf bits n) :
    find_minimal_supernet bits (n0 :: rest) 0 = some ⟨0, 0⟩ :=
  fms_zero hwf

theorem C6_amended_witness :
    (∀ n ∈ [Net.mk 0 32, Net.mk 2147483648 32], Wf 32 n) ∧
    find_minimal_supernet 32 (Net.mk 0 32 :: [Net.mk 2147483648 32]) 0 = some ⟨0, 0⟩ :=
  ⟨by decide,
    C6_amended_succeeds_without_floor 32 (Net.mk 0 32) [Net.mk 2147483648 32] (by decide)⟩

/-- Helper for C2: a successfully rewritten regular line of a fetched body
is always represented (up to trimming) in the `expand_rule_set` output,
whether or not `#NETSET` markers are present. -/
theorem expand_rule_set_regular (env : Env) (cfg : IPCfg) (url suffix text raw r : String)
    (hfetch : fetchOk (env url) = some text) (hraw : raw ∈ splitLines text)
    (hr : processRuleLine suffix raw = some r) (hne : pyStrip r ≠ ("")) :
    ∃ o ∈ expand_rule_set env cfg url suffix, pyStrip o = pyStrip r := by
  unfold expand_rule_set
  rw [hfetch]
  have hmem : r ∈ (splitLines text).filterMap (processRuleLine suffix) :=
    List.mem_filterMap.mpr ⟨raw, hraw, hr⟩
  dsimp only
  split
  · unfold dedupe_lines
    exact dedupeGo_rep _ [] r
      (List.mem_append_left _ (List.mem_cons_of_mem _ hmem)) hne (by simp)
  · unfold dedupe_lines
    exact dedupeGo_rep _ [] r (List.mem_cons_of_mem _ hmem) hne (by simp)

/-- C2 counterexample: a body holding both a regular rule line and a
`#NETSET` marker — the regular line IS processed: the output is the header
comment, the rewritten regular line, and the netset expansion (here the
fetch-failed comment of the marker's URL), not "header plus netset
expansions only". -/
theorem C2_counterexample :
    expand_rule_set
      (fun u => if u = ("u") then FetchResult.response 200 ("DOMAIN,example.com\n#NETSET n")
        else FetchResult.response 404 (""))
      {} ("u") (",PROXY") =
      [("# RULE-SET,u"), ("DOMAIN,example.com,PROXY"), ("# NETSET fetch failed: n (404)")] :=
  rfl

/-- C2 amended: when a fetched body contains `#NETSET` markers,
`expand_rule_set` still processes every regular rule line of that body —
each such line is represented (up to trimming) in the output alongside the
flattened netset expansions. -/
theorem C2_amended_regular_lines_kept (env : Env) (cfg : IPCfg) (url suffix text raw r : String)
    (hfetch : fetchOk (env url) = some text) (hraw : raw ∈ splitLines text)
    (hr : processRuleLine suffix raw = some r) (hne : pyStrip r ≠ ("")) :
    ∃ o ∈ expand_rule_set env cfg url suffix, pyStrip o = pyStrip r :=
  expand_rule_set_regular env cfg url suffix text raw r hfetch hraw hr hne

theorem C2_amended_witness :
    fetchOk ((fun _ => FetchResult.response 200 ("DOMAIN,example.com\n#NETSET n")) ("u")) =
      some ("DOMAIN,example.com\n#NETSET n") ∧
    (∃ o ∈ expand_rule_set (fun _ => FetchResult.response 200 ("DOMAIN,example.com\n#NETSET n"))
        {} ("u") (",PROXY"), pyStrip o = pyStrip ("DOMAIN,example.com,PROXY")) :=
  ⟨rfl,
    C2_amended_regular_lines_kept (fun _ => FetchResult.response 200 ("DOMAIN,example.com\n#NETSET n"))
      {} ("u") (",PROXY") ("DOMAIN,example.com\n#NETSET n") ("DOMAIN,example.com")
      ("DOMAIN,example.com,PROXY") rfl (by decide) (by decide) (by decide)⟩

/-- C4: fetch-failure containment — `expand_netset` turns a non-success
status into exactly the single fetch-failed comment line and a transport
error into exactly the single error comment line, and `expand_rule_set`
turns a failed fetch into exactly the single rule-set fetch-failed
comment; no failure escapes the task (the functions are total). -/
theorem C4_fetch_failure_containment (env : Env) (cfg : IPCfg) (url suffix : String) :
    (∀ status body, env url = FetchResult.response status body → isSuccess status = false →
      expand_netset env cfg url suffix = [s!"# NETSET fetch failed: {url} ({status})"]) ∧
    (env url = FetchResult.transportError →
      expand_netset env cfg url suffix = [s!"# NETSET error: {url}"]) ∧
    (fetchOk (env url) = none →
      expand_rule_set env cfg url suffix = [s!"# RULE-SET fetch failed: {url}"]) := by
  refine ⟨?_, ?_, ?_⟩
  · intro status body henv hfail
    unfold expand_netset
    rw [henv]
    dsimp only
    rw [hfail]
    rfl
  · intro henv
    unfold expand_netset
    rw [henv]
  · intro hfetch
    unfold expand_rule_set
    rw [hfetch]

theorem C4_fetch_failure_witness :
    ((fun _ => FetchResult.response 404 ("")) : Env) ("u") = FetchResult.response 404 ("") ∧
    isSuccess 404 = false ∧
    expand_netset (fun _ => FetchResult.response 404 ("")) {} ("u") (",P") =
      [("# NETSET fetch failed: u (404)")] ∧
    expand_netset (fun _ => FetchResult.transportError) {} ("u") (",P") =
      [("# NETSET error: u")] ∧
    expand_rule_set (fun _ => FetchResult.transportError) {} ("u") (",P") =
      [("# RULE-SET fetch failed: u")] :=
  ⟨rfl, by decide,
    (C4_fetch_failure_containment (fun _ => FetchResult.response 404 ("")) {} ("u") (",P")).1
      404 ("") rfl (by decide),
    (C4_fetch_failure_containment (fun _ => FetchResult.transportError) {} ("u") (",P")).2.1 rfl,
    (C4_fetch_failure_containment (fun _ => FetchResult.transportError) {} ("u") (",P")).2.2 rfl⟩

/-- C5 counterexample: `999.0.0.0/8` matches the IPv4 CIDR regex but fails
semantic parsing, and `netset_expand` then aborts the whole expansion with
an error instead of emitting a passthrough line — the IPv4 branch has no
`try`/`except` around `ipv4_cover_blocks`, so its `ValueError`
propagates. -/
theorem C5_counterexample :
    re_ipv4_cidr ("999.0.0.0/8") = true ∧ parseIPv4Cidr ("999.0.0.0/8") = none ∧
    netset_expand {} ("999.0.0.0/8") (",P") =
      Except.error ("Invalid IPv4 CIDR: 999.0.0.0/8") :=
  ⟨by decide, by decide, rfl⟩

/-- C5 amended: the passthrough fallback exists only on the IPv6 branch —
for every stripped line that matches the IPv6 CIDR regex but fails
semantic parsing, `netset_expand` (without compaction) emits the original
line with `IP-CIDR,` front and the suffix appended; the corresponding
IPv4 failure aborts the whole expansion (see the counterexample). -/
theorem C5_amended_ipv6_fallback (cfg : IPCfg) (suffix line : String)
    (hcomp : cfg.enableCompaction = false)
    (hstrip : pyStrip line = line) (hre : re_ipv6_cidr line = true)
    (hparse : parseIPv6Cidr line = none) :
    netset_expand cfg line suffix = Except.ok [s!"IP-CIDR,{line}{suffix}"] :=
  netset_expand_fallback cfg suffix line hcomp hstrip hre hparse

theorem C5_amended_witness :
    (IPCfg.enableCompaction {} = false ∧ pyStrip (":::/0") = (":::/0") ∧
      re_ipv6_cidr (":::/0") = true ∧ parseIPv6Cidr (":::/0") = none) ∧
    netset_expand {} (":::/0") (",P") = Except.ok [("IP-CIDR,:::/0,P")] :=
  ⟨⟨rfl, rfl, by decide, by decide⟩,
    C5_amended_ipv6_fallback {} (",P") (":::/0") rfl rfl (by decide) (by decide)⟩

/-- Helper for C10: `process_template_lines` is a deduplication of the
merged line list. -/
theorem process_template_lines_is_dedupe (env : Env) (cfg : IPCfg) (tpl : String) :
    ∃ m, process_template_lines env cfg tpl = dedupe_lines m :=
  ⟨_, rfl⟩

/-- C7: template splicing preserves order and is completion-order
independent — for every fetch environment the rendering of
`"A\nRULE-SET,u,PROXY\nB"` is exactly the passthrough line `A`, then the
full expansion list of the one task (spliced at its recorded line index),
then `B`, joined after deduplication; concretely, a body `"X\nY"` renders
as header, `X,PROXY`, `Y,PROXY` between `A` and `B`.  The result depends
only on the environment's value at the task's URL, never on completion
order (the merge is by recorded index). -/
theorem C7_splice_order :
    (∀ (env : Env) (cfg : IPCfg), process_template env cfg ("A\nRULE-SET,u,PROXY\nB") =
      String.intercalate ("\n")
        (dedupe_lines (("A") :: (expand_rule_set env cfg ("u") (",PROXY") ++ [("B")])))) ∧
    process_template
      (fun u => if u = ("u") then FetchResult.response 200 ("X\nY")
        else FetchResult.transportError) {} ("A\nRULE-SET,u,PROXY\nB") =
      ("A\n# RULE-SET,u\nX,PROXY\nY,PROXY\nB") :=
  ⟨fun _ _ => rfl, rfl⟩

/-- C8: the deduplicator is idempotent, order-preserving (its output is a
sublist of its input, so kept lines appear untrimmed in original relative
order), every kept line is the first occurrence of its trimmed value, and
every non-blank input line is represented by exactly such a first
occurrence. -/
theorem C8_dedupe_idempotent_stable :
    (∀ L : List String, dedupe_lines (dedupe_lines L) = dedupe_lines L) ∧
    (∀ L : List String, List.Sublist (dedupe_lines L) L) ∧
    (∀ (L : List String) (t : String), t ∈ dedupe_lines L →
      ∃ pre post, L = pre ++ t :: post ∧ ∀ u ∈ pre, pyStrip u ≠ pyStrip t) ∧
    (∀ (L : List String) (x : String), x ∈ L → pyStrip x ≠ ("") →
      ∃ y ∈ dedupe_lines L, pyStrip y = pyStrip x) :=
  ⟨fun L => dedupeGo_idem L [],
    fun L => dedupeGo_sublist L [],
    fun L t ht => dedupeGo_first L [] t ht,
    fun L x hx hne => dedupeGo_rep L [] x hx hne (by simp)⟩

theorem C8_dedupe_witness :
    ((" a") ∈ dedupe_lines [(" a"), ("a"), ("b"), ("")] ∧
      ∃ pre post, [(" a"), ("a"), ("b"), ("")] = pre ++ (" a") :: post ∧
        ∀ u ∈ pre, pyStrip u ≠ pyStrip (" a")) ∧
    (("a") ∈ [(" a"), ("a"), ("b"), ("")] ∧ pyStrip ("a") ≠ ("") ∧
      ∃ y ∈ dedupe_lines [(" a"), ("a"), ("b"), ("")], pyStrip y = pyStrip ("a")) :=
  ⟨⟨by decide,
      C8_dedupe_idempotent_stable.2.2.1 [(" a"), ("a"), ("b"), ("")] (" a") (by decide)⟩,
    ⟨by decide, by decide,
      C8_dedupe_idempotent_stable.2.2.2 [(" a"), ("a"), ("b"), ("")] ("a") (by decide)
        (by decide)⟩⟩

/-- C9: IPv4 cover-block enumeration over-covers by stepping from the
floored base with the inclusive loop condition `cursor <= end`: a `/16`
with target prefix 18 yields exactly the four `/18` blocks. -/
theorem C9_cover_blocks_four :
    ipv4_cover_blocks 18 ("192.168.0.0/16") =
      Except.ok [("192.168.0.0/18"), ("192.168.64.0/18"),
        ("192.168.128.0/18"), ("192.168.192.0/18")] :=
  rfl

/-- C10: the final output of `process_template` never contains a
blank-after-trim line nor two lines equal after trimming (the last merge
is globally deduplicated), and a directive-free template with blank lines
and a repeat — `"A\n\nA\n"` — renders as just `"A"`: template line count
is not preserved. -/
theorem C10_no_blank_no_duplicate :
    (∀ (env : Env) (cfg : IPCfg) (tpl l : String),
      l ∈ process_template_lines env cfg tpl → pyStrip l ≠ ("")) ∧
    (∀ (env : Env) (cfg : IPCfg) (tpl : String),
      (process_template_lines env cfg tpl).Pairwise (fun a b => pyStrip a ≠ pyStrip b)) ∧
    (∀ (env : Env) (cfg : IPCfg), process_template env cfg ("A\n\nA\n") = ("A")) := by
  refine ⟨?_, ?_, fun _ _ => rfl⟩
  · intro env cfg tpl l hl
    obtain ⟨m, hm⟩ := process_template_lines_is_dedupe env cfg tpl
    rw [hm] at hl
    exact (dedupeGo_mem m [] l hl).2.1
  · intro env cfg tpl
    obtain ⟨m, hm⟩ := process_template_lines_is_dedupe env cfg tpl
    rw [hm]
    exact dedupeGo_pairwise m []

theorem C10_witness :
    ("A") ∈ process_template_lines (fun _ => FetchResult.transportError) {} ("A\n\nA\n") ∧
    pyStrip ("A") ≠ ("") :=
  ⟨by decide,
    C10_no_blank_no_duplicate.1 (fun _ => FetchResult.transportError) {} ("A\n\nA\n") ("A")
      (by decide)⟩

end VpnSpec
